import Mathlib

/-!
# slime-split: the web build script `build_web.js`

A shallow embedding of the packaging side of `build_web.js`:

* `walkDir` and the collection loop of `buildFsJs` (the tree collector),
* the emission loop of `buildFsJs` (directory statements, the `conf.lua`
  content patch, the base64 payload and the file statements).

JavaScript strings are lists of characters, buffers are lists of bytes, the
file system is a finite tree, and an exception is an `Except` error.

After these come the loader that `buildHtml` emits, as a transition system
over its variables, and the command line and the steps of `deploy.js`.
-/

namespace SlimeSplit

/-! ## Strings and bytes -/

/-- A JavaScript string. -/
abbrev Str := List Char

/-- One byte of a `Buffer`. -/
abbrev Byte := Fin 256

/-- The call `String.prototype.split(sep)` for a one-character separator: the pieces
between the separators; the empty string gives one empty piece. -/
def split (sep : Char) : Str → List Str
  | [] => [[]]
  | c :: cs =>
    if c = sep then [] :: split sep cs
    else
      match split sep cs with
      | [] => [[c]]
      | p :: ps => (c :: p) :: ps

/-- The call `Array.prototype.join(sep)`. -/
def join (sep : Str) : List Str → Str
  | [] => []
  | [x] => x
  | x :: y :: rest => x ++ sep ++ join sep (y :: rest)

/-- The call `s.replace(/\\/g, '/')`: every backslash becomes a forward slash. -/
def replaceBackslashes (s : Str) : Str :=
  s.map (fun c => if c = '\\' then '/' else c)

/-! ## Base64 (`Buffer.prototype.toString('base64')` and its inverse) -/

/-- The base64 alphabet of RFC 4648. -/
def b64chars : Str :=
  "ABCDEFGHIJKLMNOPQRSTUVWXYZabcdefghijklmnopqrstuvwxyz0123456789+/".toList

/-- The character of a six-bit value. -/
def b64char (n : Nat) : Char := b64chars.getD n '='

/-- The encoding `data.toString('base64')`: three bytes become four
characters, a final group of one or two bytes is padded with `=`. -/
def base64 : List Byte → Str
  | [] => []
  | [a] => [b64char (a.val / 4), b64char (a.val % 4 * 16), '=', '=']
  | [a, b] =>
    [b64char (a.val / 4), b64char (a.val % 4 * 16 + b.val / 16),
      b64char (b.val % 16 * 4), '=']
  | a :: b :: c :: rest =>
    b64char (a.val / 4) :: b64char (a.val % 4 * 16 + b.val / 16) ::
      b64char (b.val % 16 * 4 + c.val / 64) :: b64char (c.val % 64) :: base64 rest

/-- A pattern item: `^` and `$` (with the `m` flag), one literal character,
or a greedy `*` over a character class. -/
inductive Item where
  | bol
  | eol
  | lit (c : Char)
  | star (cls : Char → Bool)

/-- LineTerminator of ECMAScript: LF, CR, LS, PS. -/
def isLineTerminator (c : Char) : Bool :=
  c.toNat = 0x0A || c.toNat = 0x0D || c.toNat = 0x2028 || c.toNat = 0x2029

/-- The class `\s` of ECMAScript: WhiteSpace and LineTerminator. -/
def isSpace (c : Char) : Bool :=
  (0x09 ≤ c.toNat && c.toNat ≤ 0x0D) || c.toNat = 0x20 || c.toNat = 0xA0 ||
  c.toNat = 0x1680 || (0x2000 ≤ c.toNat && c.toNat ≤ 0x200A) ||
  c.toNat = 0x2028 || c.toNat = 0x2029 || c.toNat = 0x202F ||
  c.toNat = 0x205F || c.toNat = 0x3000 || c.toNat = 0xFEFF

/-- The class `[^"]`. -/
def notQuote (c : Char) : Bool := c != '"'

/-- The assertion `^` with the `m` flag: at the start of the input or after a line
terminator. The argument is the character before the position, if any. -/
def atBol : Option Char → Bool
  | none => true
  | some c => isLineTerminator c

/-- The assertion `$` with the `m` flag: at the end of the input or before a line
terminator. The argument is the rest of the input at the position. -/
def atEol : Str → Bool
  | [] => true
  | c :: _ => isLineTerminator c

/-- A greedy `cls*` followed by the continuation `k`: one more character of
the class is tried first, and the continuation is tried at this position only
when that fails. The result is the number of characters matched. -/
def starLoop (cls : Char → Bool) (k : Option Char → Str → Option Nat) :
    Option Char → Str → Option Nat
  | prev, [] => k prev []
  | prev, c :: cs =>
    if cls c then
      match starLoop cls k (some c) cs with
      | some n => some (n + 1)
      | none => k prev (c :: cs)
    else k prev (c :: cs)

/-- Match the items at one position (`prev` is the character before it):
the length of the match, if there is one. -/
def matchHere : List Item → Option Char → Str → Option Nat
  | [], _, _ => some 0
  | .bol :: items, prev, s => if atBol prev then matchHere items prev s else none
  | .eol :: items, prev, s => if atEol s then matchHere items prev s else none
  | .lit _ :: _, _, [] => none
  | .lit c :: items, _, d :: s =>
    if d = c then (matchHere items (some d) s).map (· + 1) else none
  | .star cls :: items, prev, s => starLoop cls (matchHere items) prev s

/-- The leftmost match at or after a position: its start index and length.
Every position is tried, the end of the input included. -/
def execFrom (re : List Item) : Option Char → Str → Nat → Option (Nat × Nat)
  | prev, [], i => (matchHere re prev []).map (fun n => (i, n))
  | prev, c :: cs, i =>
    match matchHere re prev (c :: cs) with
    | some n => some (i, n)
    | none => execFrom re (some c) cs (i + 1)

/-- The call `s.replace(re, repl)` for a pattern without the `g` flag and a
replacement text without `$`: the first match is replaced. -/
def replaceFirst (re : List Item) (repl : Str) (s : Str) : Str :=
  match execFrom re none s 0 with
  | none => s
  | some (i, n) => s.take i ++ repl ++ s.drop (i + n)

/-- The pattern `/^\s*t\.version\s*=\s*"[^"]*"\s*$/m`. -/
def versionLine : List Item :=
  [.bol, .star isSpace] ++ "t.version".toList.map Item.lit ++
  [.star isSpace, .lit '=', .star isSpace, .lit '"', .star notQuote, .lit '"',
    .star isSpace, .eol]

/-- The replacement text of the patch. -/
def placeholder : Str := "    -- t.version removed for web build compatibility".toList

/-- The content patch applied to the text of `conf.lua`. -/
def patchConf (src : Str) : Str := replaceFirst versionLine placeholder src

/-! ## The file system

The host is modelled with POSIX paths. An absolute normalized path is the
list of its segments below `/`. -/

/-- A file-system object: a regular file with its bytes, a directory with its
entries in listing order, or an object that is neither (`isFile()` and
`isDirectory()` are both false). Symbolic links are not modelled. -/
inductive Node where
  | file (data : List Byte)
  | dir (entries : List (Str × Node))
  | other

/-- An absolute normalized path. -/
abbrev Path := List Str

instance {ε α : Type} [DecidableEq ε] [DecidableEq α] : DecidableEq (Except ε α)
  | .ok x, .ok y =>
    if h : x = y then isTrue (congrArg Except.ok h) else isFalse (fun e => h (Except.ok.inj e))
  | .error x, .error y =>
    if h : x = y then isTrue (congrArg Except.error h)
    else isFalse (fun e => h (Except.error.inj e))
  | .ok _, .error _ => isFalse (fun e => Except.noConfusion e)
  | .error _, .ok _ => isFalse (fun e => Except.noConfusion e)

/-- Failure of a file-system call. -/
inductive FsError where
  | stat (path : Path)
  | read (path : Path)
  deriving DecidableEq

/-- The entry of a directory listing with a given name. -/
def lookupEntry (name : Str) : List (Str × Node) → Option Node
  | [] => none
  | (n, node) :: rest => if n = name then some node else lookupEntry name rest

/-- The object at a path below a node. -/
def lookup : Node → Path → Option Node
  | node, [] => some node
  | .dir entries, s :: p =>
    match lookupEntry s entries with
    | some child => lookup child p
    | none => none
  | _, _ :: _ => none

/-- One segment of path normalization: empty segments and `.` are dropped,
`..` removes the last segment (and stays at `/`). -/
def pathStep (acc : Path) (seg : Str) : Path :=
  if seg = [] ∨ seg = ['.'] then acc
  else if seg = ['.', '.'] then acc.dropLast
  else acc ++ [seg]

/-- The call `path.join(dir, s)` for an absolute normalized `dir`. -/
def pathJoin (dir : Path) (s : Str) : Path :=
  (split '/' s).foldl pathStep dir

/-- Whether `path.join(dir, s)` keeps a trailing separator. -/
def trailingSlash (s : Str) : Bool := s.getLast? = some '/'

/-- The segments left after the common leading segments of two paths. -/
def stripCommon : Path → Path → Path × Path
  | a :: as, b :: bs => if a = b then stripCommon as bs else (a :: as, b :: bs)
  | as, bs => (as, bs)

/-- The call `path.relative(src, dst)` for absolute normalized paths. -/
def pathRelative (src dst : Path) : Str :=
  join ['/'] ((stripCommon src dst).1.map (fun _ => ['.', '.']) ++ (stripCommon src dst).2)

/-- The call `fs.statSync(p)`: fails when nothing is at the path, and when the path
was written with a trailing separator and is not a directory. -/
def statSync (fs : Node) (p : Path) (trailing : Bool) : Except FsError Node :=
  match lookup fs p with
  | none => .error (.stat p)
  | some (.dir entries) => .ok (.dir entries)
  | some node => if trailing then .error (.stat p) else .ok node

/-- The call `fs.readFileSync(p)`: the bytes of a regular file; reading a
directory fails, and reading an object that is neither is taken to fail. -/
def readFileSync (fs : Node) (p : Path) : Except FsError (List Byte) :=
  match lookup fs p with
  | some (.file data) => .ok data
  | _ => .error (.read p)

/-! ## The tree collector -/

/-- A manifest entry `{absPath, relPath}`. -/
structure FileEntry where
  absPath : Path
  relPath : Str
  deriving DecidableEq

mutual
/-- The function `walkDir(dir, rootDir)`, given the listing `fs.readdirSync(dir)`: the
results of the entries in listing order. -/
def walkDir : List (Str × Node) → Path → Path → List FileEntry
  | [], _, _ => []
  | (name, node) :: rest, dir, rootDir =>
    walkEntry node (pathJoin dir name) rootDir ++ walkDir rest dir rootDir
/-- The body of the loop of `walkDir` for the entry at `absPath`: a directory
is walked (its listing is its entry list), a regular file is pushed with its
`relPath`, anything else is skipped. -/
def walkEntry : Node → Path → Path → List FileEntry
  | .dir entries, absPath, rootDir => walkDir entries absPath rootDir
  | .file _, absPath, rootDir =>
    [{ absPath := absPath, relPath := replaceBackslashes (pathRelative rootDir absPath) }]
  | .other, _, _ => []
end

/-- What one pattern pushes onto `allFiles`, given its `stat`. -/
def patternFiles (root : Path) (pattern : Str) : Node → List FileEntry
  | .dir entries => walkDir entries (pathJoin root pattern) root
  | _ => [{ absPath := pathJoin root pattern, relPath := replaceBackslashes pattern }]

/-- The collection loop of `buildFsJs`: `allFiles` after the patterns, or the
error of the first `statSync` that throws. -/
def collect (fs : Node) (root : Path) : List Str → List FileEntry → Except FsError (List FileEntry)
  | [], allFiles => .ok allFiles
  | pattern :: rest, allFiles =>
    match statSync fs (pathJoin root pattern) (trailingSlash pattern) with
    | .error e => .error e
    | .ok stat => collect fs root rest (allFiles ++ patternFiles root pattern stat)

/-! ## The virtualization encoder -/

/-- One line appended to `fsjs`. -/
inductive Stmt where
  | mkdir (path : Str)
  | createDataFile (parent name b64 : Str)
  deriving DecidableEq

/-- The text of a statement, as the source concatenates it. -/
def Stmt.render : Stmt → Str
  | .mkdir path => "FS.mkdir('".toList ++ path ++ "');\n".toList
  | .createDataFile parent name b64 =>
    "FS.createDataFile('".toList ++ parent ++ "','".toList ++ name ++
      "',FS.DEC('".toList ++ b64 ++ "'),!0,!0,!0);\n".toList

/-- The virtual path a statement creates: the directory, or the file in its
parent directory. -/
def Stmt.path : Stmt → Str
  | .mkdir path => path
  | .createDataFile parent name _ => parent ++ ['/'] ++ name

/-- The text decoding and encoding of the host that the patch goes through:
`data.toString('utf-8')` and `Buffer.from(src, 'utf-8')`. -/
structure Codec where
  decode : List Byte → Str
  encode : Str → List Byte

/-- The variables `fsjs` (as the lines appended so far) and `createdDirs`
(in insertion order) of `buildFsJs`. -/
structure Encoder where
  fsjs : List Stmt
  createdDirs : List Str

/-- The inner loop over `parts[0 .. length-2]`: extend `dirPath` by each
segment and create the directory unless `createdDirs` has it. -/
def ensureDirs : List Str → Str → Encoder → Encoder
  | [], _, st => st
  | part :: rest, dirPath, st =>
    let dirPath := dirPath ++ ['/'] ++ part
    if dirPath ∈ st.createdDirs then ensureDirs rest dirPath st
    else
      ensureDirs rest dirPath
        { fsjs := st.fsjs ++ [.mkdir dirPath], createdDirs := st.createdDirs ++ [dirPath] }

/-- The `parent` argument of the file statement. -/
def parentOf (parts : List Str) : Str :=
  if parts.length > 1 then ['/', 'l', '/'] ++ join ['/'] parts.dropLast else ['/', 'l']

/-- The `fileName`: `parts[parts.length - 1]`. -/
def fileNameOf (parts : List Str) : Str := parts.getLastD []

/-- The bytes that are encoded for a file: patched when the file name is
`conf.lua`, as read otherwise. -/
def payload (codec : Codec) (fileName : Str) (data : List Byte) : List Byte :=
  if fileName = "conf.lua".toList then codec.encode (patchConf (codec.decode data)) else data

/-- The body of the loop over `allFiles` for one entry. -/
def embedFile (codec : Codec) (fs : Node) (file : FileEntry) (st : Encoder) :
    Except FsError Encoder :=
  let parts := split '/' file.relPath
  let st := ensureDirs parts.dropLast ['/', 'l'] st
  match readFileSync fs file.absPath with
  | .error e => .error e
  | .ok data =>
    .ok { st with
      fsjs := st.fsjs ++
        [.createDataFile (parentOf parts) (fileNameOf parts)
          (base64 (payload codec (fileNameOf parts) data))] }

/-- The loop over `allFiles`. -/
def embedAll (codec : Codec) (fs : Node) : List FileEntry → Encoder → Except FsError Encoder
  | [], st => .ok st
  | file :: rest, st =>
    match embedFile codec fs file st with
    | .error e => .error e
    | .ok st => embedAll codec fs rest st

/-- The lines of the script for a manifest: the root directory first, then
the loop over `allFiles`. -/
def emit (codec : Codec) (fs : Node) (allFiles : List FileEntry) : Except FsError (List Stmt) :=
  match embedAll codec fs allFiles { fsjs := [.mkdir ['/', 'l']], createdDirs := [['/', 'l']] } with
  | .error e => .error e
  | .ok st => .ok st.fsjs

/-- The text `fsjs`: each line appended in turn. -/
def scriptText (lines : List Stmt) : Str :=
  lines.foldl (fun fsjs line => fsjs ++ line.render) []

/-- The function `buildFsJs()` for a root directory and a pattern list: collect, then emit. -/
def buildFsJs (codec : Codec) (fs : Node) (root : Path) (patterns : List Str) :
    Except FsError Str :=
  match collect fs root patterns [] with
  | .error e => .error e
  | .ok allFiles =>
    match emit codec fs allFiles with
    | .error e => .error e
    | .ok lines => .ok (scriptText lines)

/-! ## Notions used to state the properties -/

/-- The directory path after the inner loop has gone through `segs`. -/
def extend (dirPath : Str) (segs : List Str) : Str :=
  segs.foldl (fun d p => d ++ ['/'] ++ p) dirPath

/-- The paths of the directory statements of a script, in order. -/
def mkdirPaths (l : List Stmt) : List Str :=
  l.filterMap (fun s => match s with | .mkdir p => some p | .createDataFile _ _ _ => none)

/-- The file statements of a script, in order. -/
def fileStmts (l : List Stmt) : List Stmt :=
  l.filter (fun s => match s with | .mkdir _ => false | .createDataFile _ _ _ => true)

/-- The directories the inner loop visits from `dirPath` through `segs`. -/
def dirChain (dirPath : Str) : List Str → List Str
  | [] => []
  | p :: rest => (dirPath ++ ['/'] ++ p) :: dirChain (dirPath ++ ['/'] ++ p) rest

/-- Every statement comes after the directory statements of all the
directories above its path. -/
def Good (l : List Stmt) : Prop :=
  ∀ pre s post, l = pre ++ s :: post →
    ∀ P, ['/', 'l'] <+: P → P ++ ['/'] <+: s.path → Stmt.mkdir P ∈ pre

/-- The loop invariant of `buildFsJs`. -/
structure Inv (st : Encoder) : Prop where
  created : st.createdDirs = mkdirPaths st.fsjs
  nodup : st.createdDirs.Nodup
  rooted : ∀ p ∈ st.createdDirs, ['/', 'l'] <+: p
  root : ['/', 'l'] ∈ st.createdDirs
  good : Good st.fsjs
  args : ∀ parent name b64, Stmt.createDataFile parent name b64 ∈ st.fsjs →
    ['/', 'l'] <+: parent ∧ '/' ∉ name

/-- The statement of a manifest entry, given the bytes read for it. -/
def fileStmt (codec : Codec) (file : FileEntry) (data : List Byte) : Stmt :=
  .createDataFile (parentOf (split '/' file.relPath)) (fileNameOf (split '/' file.relPath))
    (base64 (payload codec (fileNameOf (split '/' file.relPath)) data))

/-- The text of a statement without its final newline: a directory statement,
or a file statement with its three flags `!0`. -/
def Stmt.line : Stmt → Str
  | .mkdir path => "FS.mkdir('".toList ++ path ++ "');".toList
  | .createDataFile parent name b64 =>
    "FS.createDataFile('".toList ++ parent ++ "','".toList ++ name ++
      "',FS.DEC('".toList ++ b64 ++ "'),!0,!0,!0);".toList

mutual
/-- The regular files below a directory, as the contract of the tree
collector words it: every regular file reachable, the entries of a directory
in listing order, recursing depth-first. Each file is given by the names on
its way down from the directory. -/
def regularFilesUnder : List (Str × Node) → List (List Str)
  | [] => []
  | (name, node) :: rest =>
    (regularFilesAt node).map (fun p => name :: p) ++ regularFilesUnder rest
/-- The regular files at or below one object. -/
def regularFilesAt : Node → List (List Str)
  | .dir entries => regularFilesUnder entries
  | .file _ => [[]]
  | .other => []
end

/-- A name a directory entry can have on a POSIX host: not empty, not `.` or
`..`, and without `/`. -/
def entryName (name : Str) : Bool :=
  name ≠ [] && name ≠ ['.'] && name ≠ ['.', '.'] && !name.contains '/'

/-- An entry name without a backslash. -/
def plainName (name : Str) : Bool :=
  entryName name && !name.contains '\\'

/-- The segment paths, from the root, of what a pattern naming a root entry
contributes: the regular files below a directory, or the entry itself. -/
def patternPaths (pattern : Str) : Node → List (List Str)
  | .dir entries => (regularFilesUnder entries).map (fun p => pattern :: p)
  | _ => [[pattern]]

mutual
/-- A directory listing of a file system: the names satisfy `ok` and no two
entries of a directory have the same name, at every level. -/
def listingOk (ok : Str → Bool) : List (Str × Node) → Bool
  | [] => true
  | (name, node) :: rest =>
    ok name && (lookupEntry name rest).isNone && nodeOk ok node && listingOk ok rest
/-- The listings at and below an object are well formed. -/
def nodeOk (ok : Str → Bool) : Node → Bool
  | .dir entries => listingOk ok entries
  | .file _ => true
  | .other => true
end

/-! ## A worked example: the tree `{main.lua, conf.lua, src/level1.lua}` -/

/-- One byte per character, for text of one-byte characters. -/
def bytesOf (s : Str) : List Byte := s.map (fun c => Fin.ofNat c.toNat)

/-- UTF-8 on ASCII text: one character per byte. -/
def asciiCodec : Codec where
  decode := fun bs => bs.map (fun b => Char.ofNat b.val)
  encode := bytesOf

/-- A file system with the game in the directory `/game`. -/
def exampleFs : Node :=
  .dir [("game".toList, .dir [
    ("main.lua".toList, .file (bytesOf "print(1)".toList)),
    ("conf.lua".toList, .file (bytesOf "t.version = \"11.4\"\n".toList)),
    ("src".toList, .dir [("level1.lua".toList, .file (bytesOf "return 1".toList))])])]

/-- The root directory of the example. -/
def exampleRoot : Path := ["game".toList]

/-- The pattern list `GAME_FILES_PATTERNS` of the source. -/
def examplePatterns : List Str := ["main.lua".toList, "conf.lua".toList, "src".toList]

/-- The manifest of the example. -/
def exampleManifest : List FileEntry :=
  [{ absPath := ["game".toList, "main.lua".toList], relPath := "main.lua".toList },
   { absPath := ["game".toList, "conf.lua".toList], relPath := "conf.lua".toList },
   { absPath := ["game".toList, "src".toList, "level1.lua".toList],
     relPath := "src/level1.lua".toList }]

/-- The lines of the script of the example. -/
def exampleScript : List Stmt :=
  [.mkdir "/l".toList,
   .createDataFile "/l".toList "main.lua".toList "cHJpbnQoMSk=".toList,
   .createDataFile "/l".toList "conf.lua".toList
     "ICAgIC0tIHQudmVyc2lvbiByZW1vdmVkIGZvciB3ZWIgYnVpbGQgY29tcGF0aWJpbGl0eQ==".toList,
   .mkdir "/l/src".toList,
   .createDataFile "/l/src".toList "level1.lua".toList "cmV0dXJuIDE=".toList]

/-- A game directory with one file whose name contains a newline. -/
def newlineFs : Node :=
  .dir [("game".toList, .dir [("a\nb".toList, .file [])])]

/-- The manifest of `newlineFs`. -/
def newlineManifest : List FileEntry :=
  [{ absPath := ["game".toList, "a\nb".toList], relPath := "a\nb".toList }]

/-- The lines of the script of `newlineFs`. -/
def newlineScript : List Stmt :=
  [.mkdir "/l".toList, .createDataFile "/l".toList "a\nb".toList []]

/-- A game directory with one file whose name contains a backslash. -/
def backslashFs : Node :=
  .dir [("game".toList, .dir [("a\\b".toList, .file [])])]

/-! ## The generated loader (the script that `buildHtml` emits)

The loader is a set of event handlers over a few variables. Its state holds
those variables and which callbacks are pending; an event whose callback is
not pending changes nothing. Numbers are exact rationals. -/

namespace TXT

/-- The text `TXT.PLAYBTN`. -/
def PLAYBTN : Str := "Click to Play".toList

/-- The text `TXT.LOAD`. -/
def LOAD : Str := "Downloading Game...".toList

/-- The text `TXT.PARSE`. -/
def PARSE : Str := "Preparing Game...".toList

/-- The text `TXT.EXECUTE`. -/
def EXECUTE : Str := "Starting Game...".toList

/-- The text `TXT.DLERROR`, with its newline. -/
def DLERROR : Str :=
  "Error while downloading game data.\nCheck your internet connection.".toList

/-- The text `TXT.NOWEBGL`. -/
def NOWEBGL : Str :=
  ("Your browser does not support <a href=\"http://khronos.org/webgl/wiki/" ++
    "Getting_a_WebGL_Implementation\">WebGL</a>.<br>Find out how to get it " ++
    "<a href=\"http://get.webgl.org/\">here</a>.").toList

end TXT

/-- The variables of the loader and its pending callbacks. -/
structure Loader where
  /-- The property `canvas.disabled`. -/
  disabled : Bool
  /-- The counter `ctx.pCnt`. -/
  pCnt : Nat
  /-- The text on the canvas: the play button, or what `Msg` drew last. -/
  message : Str
  /-- A request has been sent and has not ended: its handlers are pending. -/
  xhr : Bool
  /-- The number of calls of `xhr.send()` so far. -/
  sent : Nat
  /-- The widths `w` of the progress bars drawn so far (`none` for NaN). -/
  bars : List (Option ℚ)
  /-- The deferred function of `xhr.onload` is pending. -/
  timer : Bool
  /-- The hook `window.onerror` is installed. -/
  hooked : Bool
  /-- The hook `Module.postRun` is set and has not been called. -/
  postRunSet : Bool
  /-- The markup that `Fail` put in place of the canvas, if it did. -/
  overlay : Option Str
  /-- The canvas of the runtime has taken the place of the loader's canvas. -/
  swapped : Bool
  /-- The variables `Msg`, `ctx` and `canvas` are null. -/
  released : Bool
  deriving DecidableEq

/-- An event of the page. -/
inductive Event where
  | click
  | progress (lengthComputable : Bool) (loaded total : Nat)
  | error
  | abort
  | load (status : Nat) (statusText : Str)
  | timeout
  | postRun (noExitRuntime : Bool)
  | windowError (e u l : Str)
  deriving DecidableEq

/-- The stages of the loader. -/
inductive Stage where
  | idle
  | downloading
  | preparing
  | executing
  | running
  | failed
  deriving DecidableEq

namespace Loader

/-- The loader after `DoSetup()`: the play button is drawn, nothing is pending. -/
def DoSetup : Loader where
  disabled := false
  pCnt := 0
  message := TXT.PLAYBTN
  xhr := false
  sent := 0
  bars := []
  timer := false
  hooked := false
  postRunSet := false
  overlay := none
  swapped := false
  released := false

/-- The call `Msg(m)`: the canvas shows the lines of `m`. -/
def Msg (m : Str) (s : Loader) : Loader := { s with message := m }

/-- The call `Fail(m)`: the canvas is replaced by the markup with `TXT.NOWEBGL`
and, when `m` is given and not empty, `m` after it. Nothing happens when the
canvas is no longer in the document or `canvas` is null. -/
def Fail (m : Option Str) (s : Loader) : Loader :=
  if s.overlay.isSome || s.swapped then s
  else
    { s with overlay := some (TXT.NOWEBGL ++
        match m with
        | some t => if t = [] then [] else "<br><br>".toList ++ t
        | none => []) }

/-- The call `DoExecute()`, up to the deferred `Module.run`: the message, and
the hook `Module.postRun`. -/
def DoExecute (s : Loader) : Loader :=
  { Msg TXT.EXECUTE s with postRunSet := true }

/-- The hook `Module.postRun` for the value of `Module.noExitRuntime`: `Fail()`
and return when it is false; otherwise the canvas is swapped and the
variables are released (the swap throws when the canvas has no parent). -/
def postRun (noExitRuntime : Bool) (s : Loader) : Loader :=
  let s := { s with postRunSet := false }
  if !noExitRuntime then Fail none s
  else if s.overlay.isSome then s
  else { s with swapped := true, released := true }

/-- The width `w = Math.min(e.loaded/e.total,1)*300` (`none` for NaN). -/
def barWidth (loaded total : Nat) : Option ℚ :=
  if total = 0 then (if loaded = 0 then none else some 300)
  else some (min ((loaded : ℚ) / (total : ℚ)) 1 * 300)

/-- The handler `xhr.onprogress`: return unless the length is computable and
`ctx.pCnt++ < 5` is false; otherwise draw the bar. -/
def onprogress (lengthComputable : Bool) (loaded total : Nat) (s : Loader) : Loader :=
  if !lengthComputable then s
  else if s.pCnt < 5 then { s with pCnt := s.pCnt + 1 }
  else { s with pCnt := s.pCnt + 1, bars := s.bars ++ [barWidth loaded total] }

/-- The handler `xhr.onerror = xhr.onabort`. -/
def onerror (s : Loader) : Loader :=
  { Msg TXT.DLERROR { s with xhr := false } with disabled := false }

/-- The handler `xhr.onload`: a status other than 200 shows the error text
with the status text and enables the canvas; status 200 shows the next
message and defers the injection. -/
def onload (status : Nat) (statusText : Str) (s : Loader) : Loader :=
  let s := { s with xhr := false }
  if status ≠ 200 then
    { Msg (TXT.DLERROR ++ "\nStatus: ".toList ++ statusText) s with disabled := false }
  else { Msg TXT.PARSE s with timer := true }

/-- The deferred function of `xhr.onload`: the error hook is installed, the
module is configured and the script is injected; the runtime calls
`Module.preInit`, which is `DoExecute`, while the script is evaluated. -/
def ontimeout (s : Loader) : Loader :=
  DoExecute { s with timer := false, hooked := true }

/-- The call `DoLoad()`: the message, and a request is sent. -/
def DoLoad (s : Loader) : Loader :=
  { Msg TXT.LOAD s with xhr := true, sent := s.sent + 1 }

/-- The handler `canvas.onclick`; no click reaches the canvas once it is out
of the document. -/
def onclick (s : Loader) : Loader :=
  if s.overlay.isSome || s.swapped then s
  else if s.disabled then s
  else DoLoad { s with disabled := true, pCnt := 0 }

/-- One event: its handler runs when it is pending. -/
def step (s : Loader) : Event → Loader
  | .click => onclick s
  | .progress lengthComputable loaded total =>
    if s.xhr then onprogress lengthComputable loaded total s else s
  | .error => if s.xhr then onerror s else s
  | .abort => if s.xhr then onerror s else s
  | .load status statusText => if s.xhr then onload status statusText s else s
  | .timeout => if s.timer then ontimeout s else s
  | .postRun noExitRuntime => if s.postRunSet then postRun noExitRuntime s else s
  | .windowError e u l =>
    if s.hooked then Fail (some (e ++ "<br>(".toList ++ u ++ [':'] ++ l ++ [')'])) s else s

/-- A sequence of events. -/
def run (s : Loader) (events : List Event) : Loader := events.foldl step s

/-- The stage a loader is in, read off its variables: the runtime canvas is
in place; the failure markup is in place; the post-run hook, the deferred
injection or the request is pending; the canvas shows the download error;
otherwise the loader is idle. -/
def stage (s : Loader) : Stage :=
  if s.swapped then .running
  else if s.overlay.isSome then .failed
  else if s.postRunSet then .executing
  else if s.timer then .preparing
  else if s.xhr then .downloading
  else if TXT.DLERROR.isPrefixOf s.message then .failed
  else .idle

/-- What holds of the variables of every loader that events can produce: the
canvas is disabled exactly while a request or the injection is pending or the
error hook is installed; these exclude each other in this order; and once the
hook is installed, the post-run hook is pending or an outcome is in place. -/
structure Inv (s : Loader) : Prop where
  busy : s.disabled = (s.xhr || s.timer || s.hooked)
  xhrFirst : s.xhr = true → s.timer = false ∧ s.hooked = false
  timerNext : s.timer = true → s.hooked = false
  hook : s.hooked = true → s.postRunSet = true ∨ s.overlay.isSome = true ∨ s.swapped = true
  post : s.postRunSet = true → s.hooked = true
  rel : s.released = s.swapped

end Loader

/-! ## The deploy script `deploy.js`

A run of `main()` is the list of build and push steps it starts, in order,
and whether it ends normally or by `process.exit(1)`. -/

namespace Deploy

/-- An external command of the script. -/
inductive Cmd where
  | butlerVersion
  | nodeVersion
  | compressArchive
  | fuse
  | buildWebScript
  | butlerPush (channel : Str)
  deriving DecidableEq

/-- The host of a run: which files exist and which commands succeed. The three
last fields are the existence checks of the deploy phase. -/
structure Host where
  butler : Bool
  creds : Bool
  loveExe : Bool
  sources : Bool
  cmdOk : Cmd → Bool
  webIndex : Bool
  winExe : Bool
  loveFile : Bool

/-- The object `flags`. -/
structure Flags where
  buildOnly : Bool
  deployOnly : Bool
  webOnly : Bool
  winOnly : Bool
  dryRun : Bool
  version : Option Str
  deriving DecidableEq

/-- The object `targets`. -/
structure Targets where
  web : Bool
  win : Bool
  love : Bool
  deriving DecidableEq

/-- A step that `main()` starts. -/
inductive Step where
  | buildLove
  | buildWin
  | buildWeb
  | push (channel : Str)
  deriving DecidableEq

/-- The table `CONFIG.CHANNELS`. -/
def CHANNELS_web : Str := "html5".toList

/-- The channel of the Windows build. -/
def CHANNELS_win : Str := "windows".toList

/-- The channel of the `.love` file. -/
def CHANNELS_love : Str := "love".toList

/-- The argument after `--version`, when there is one and it is not empty. -/
def versionArg (args : List Str) : Option Str :=
  match args.dropWhile (fun a => a ≠ "--version".toList) with
  | _ :: v :: _ => if v = [] then none else some v
  | _ => none

/-- The flags of a command line `process.argv.slice(2)`. -/
def parseFlags (args : List Str) : Flags where
  buildOnly := args.contains "--build-only".toList
  deployOnly := args.contains "--deploy-only".toList
  webOnly := args.contains "--web".toList
  winOnly := args.contains "--win".toList
  dryRun := args.contains "--dry-run".toList
  version := versionArg args

/-- The constant `doBuild`. -/
def doBuild (flags : Flags) : Bool := !flags.deployOnly

/-- The constant `doDeploy`. -/
def doDeploy (flags : Flags) : Bool := !flags.buildOnly

/-- The initial `targets`. -/
def initialTargets (flags : Flags) : Targets where
  web := !flags.winOnly
  win := !flags.webOnly
  love := !flags.winOnly && !flags.webOnly

/-- The function `preflight()`: `none` when it exits, else the targets, in
which the Windows target is dropped when `love.exe` is not found. -/
def preflight (host : Host) (flags : Flags) (targets : Targets) : Option Targets :=
  if !host.butler then none
  else if !host.cmdOk .butlerVersion then none
  else if !host.creds then none
  else
    let targets :=
      if doBuild flags && targets.win && !host.loveExe then { targets with win := false }
      else targets
    if doBuild flags && targets.web && !host.cmdOk .nodeVersion then none
    else if !host.sources then none
    else some targets

/-- The end of a run: the steps started, and whether it ended normally. -/
structure Outcome where
  steps : List Step
  completed : Bool
  deriving DecidableEq

/-- The build phase: the steps it starts, and whether every command of it
succeeded. -/
def buildPhase (host : Host) (targets : Targets) : List Step × Bool :=
  if !host.cmdOk .compressArchive then ([.buildLove], false)
  else
    let afterWin : List Step × Bool :=
      if targets.win then ([.buildLove, .buildWin], host.cmdOk .fuse)
      else ([.buildLove], true)
    if !afterWin.2 then afterWin
    else if targets.web then (afterWin.1 ++ [.buildWeb], host.cmdOk .buildWebScript)
    else afterWin

/-- One block of the deploy phase: the existence check, then `butlerPush`. -/
def pushBlock (host : Host) (wanted exist : Bool) (channel : Str)
    (run : List Step × Bool) : List Step × Bool :=
  if !run.2 || !wanted then run
  else if !exist then (run.1, false)
  else (run.1 ++ [.push channel], host.cmdOk (.butlerPush channel))

/-- The deploy phase after the steps so far. -/
def deployPhase (host : Host) (targets : Targets) (steps : List Step) : List Step × Bool :=
  pushBlock host targets.love host.loveFile CHANNELS_love
    (pushBlock host targets.win host.winExe CHANNELS_win
      (pushBlock host targets.web host.webIndex CHANNELS_web (steps, true)))

/-- The function `main()` for a command line. -/
def main (host : Host) (args : List Str) : Outcome :=
  let flags := parseFlags args
  match preflight host flags (initialTargets flags) with
  | none => { steps := [], completed := false }
  | some targets =>
    let built : List Step × Bool :=
      if doBuild flags then buildPhase host targets else ([], true)
    if !built.2 then { steps := built.1, completed := false }
    else
      let deployed : List Step × Bool :=
        if doDeploy flags then deployPhase host targets built.1 else built
      { steps := deployed.1, completed := deployed.2 }

/-- A host on which every file is present and every command succeeds. -/
def fullHost : Host where
  butler := true
  creds := true
  loveExe := true
  sources := true
  cmdOk := fun _ => true
  webIndex := true
  winExe := true
  loveFile := true

end Deploy

/-! # Theorems -/

/-! ### Paths as texts: what lies above a path -/

theorem isPrefix_append_cases {α : Type} {a b c : List α} (h : a <+: b ++ c) :
    a <+: b ∨ ∃ t, a = b ++ t ∧ t <+: c := by
  rcases List.prefix_or_prefix_of_prefix h (List.prefix_append b c) with h1 | h1
  · exact Or.inl h1
  · obtain ⟨t, rfl⟩ := h1
    exact Or.inr ⟨t, rfl, (List.prefix_append_right_inj b).1 h⟩

theorem concat_eq_concat {α : Type} {a b : List α} {x y : α} (h : a ++ [x] = b ++ [y]) :
    a = b ∧ x = y := by
  have h1 := congrArg List.dropLast h
  have h2 := congrArg List.getLast? h
  simp at h1 h2
  exact ⟨h1, h2⟩

theorem slash_isPrefix_name {P D X : Str} (hX : '/' ∉ X)
    (h : P ++ ['/'] <+: D ++ ['/'] ++ X) : P ++ ['/'] <+: D ++ ['/'] := by
  rcases isPrefix_append_cases h with h1 | ⟨t, ht, htX⟩
  · exact h1
  · rcases List.eq_nil_or_concat t with rfl | ⟨t', c, rfl⟩
    · rw [ht]; simp
    · exfalso
      have hc : c = '/' := by
        have h3 : P ++ ['/'] = (D ++ ['/'] ++ t') ++ [c] := by simpa using ht
        exact (concat_eq_concat h3).2.symm
      subst hc
      exact hX (htX.subset (by simp))

theorem slash_isPrefix_dir {P D X : Str} (hX : '/' ∉ X)
    (h : P ++ ['/'] <+: D ++ ['/'] ++ X ++ ['/']) :
    P ++ ['/'] <+: D ++ ['/'] ∨ P = D ++ ['/'] ++ X := by
  rcases isPrefix_append_cases h with h1 | ⟨t, ht, htX⟩
  · exact Or.inl (slash_isPrefix_name hX h1)
  · rcases List.eq_nil_or_concat t with rfl | ⟨t', c, rfl⟩
    · left
      apply slash_isPrefix_name hX
      rw [ht]; simp
    · right
      have h3 : P ++ ['/'] = (D ++ ['/'] ++ X ++ t') ++ [c] := by simpa using ht
      have h4 := (concat_eq_concat h3).1
      have hlen := htX.length_le
      simp at hlen
      subst hlen
      simpa using h4

/-! ### `split` and `join` -/

theorem split_ne_nil (sep : Char) (s : Str) : split sep s ≠ [] := by
  induction s with
  | nil => simp [split]
  | cons c cs ih =>
    unfold split
    split_ifs
    · simp
    · cases h : split sep cs <;> simp

theorem not_mem_of_mem_split (sep : Char) (s : Str) : ∀ x ∈ split sep s, sep ∉ x := by
  induction s with
  | nil => simp [split]
  | cons c cs ih =>
    unfold split
    split_ifs with hc
    · intro x hx
      rcases List.mem_cons.1 hx with rfl | hx
      · simp
      · exact ih x hx
    · cases h : split sep cs with
      | nil => exact absurd h (split_ne_nil sep cs)
      | cons p ps =>
        rw [h] at ih
        intro x hx
        rcases List.mem_cons.1 hx with rfl | hx
        · have := ih p (by simp)
          simp only [List.mem_cons, not_or]
          exact ⟨fun e => hc e.symm, this⟩
        · exact ih x (by simp [hx])

theorem split_of_not_mem {sep : Char} (s : Str) (h : sep ∉ s) : split sep s = [s] := by
  induction s with
  | nil => rfl
  | cons c cs ih =>
    simp only [List.mem_cons, not_or] at h
    rw [split, if_neg (fun e => h.1 e.symm), ih h.2]

theorem join_split (sep : Char) (s : Str) : join [sep] (split sep s) = s := by
  induction s with
  | nil => simp [split, join]
  | cons c cs ih =>
    unfold split
    split_ifs with hc
    · cases h : split sep cs with
      | nil => exact absurd h (split_ne_nil sep cs)
      | cons p ps =>
        rw [h] at ih
        simp [join, ih, hc]
    · cases h : split sep cs with
      | nil => exact absurd h (split_ne_nil sep cs)
      | cons p ps =>
        rw [h] at ih
        cases ps with
        | nil => simpa [join] using ih
        | cons q qs =>
          simp only [join] at ih ⊢
          simp [← ih]

theorem extend_cons_eq_join (D x : Str) (xs : List Str) :
    extend D (x :: xs) = D ++ ['/'] ++ join ['/'] (x :: xs) := by
  induction xs generalizing D x with
  | nil => simp [extend, join]
  | cons y ys ih =>
    have : extend D (x :: y :: ys) = extend (D ++ ['/'] ++ x) (y :: ys) := rfl
    rw [this, ih]
    simp [join]

theorem join_dropLast_getLast (parts : List Str) (h : 1 < parts.length) :
    join ['/'] parts.dropLast ++ ['/'] ++ parts.getLastD [] = join ['/'] parts := by
  induction parts with
  | nil => simp at h
  | cons x xs ih =>
    cases xs with
    | nil => simp at h
    | cons y ys =>
      cases ys with
      | nil => simp [join]
      | cons z zs =>
        have := ih (by simp)
        simp only [List.dropLast_cons₂, join, List.getLastD_cons] at this ⊢
        simp only [List.append_assoc] at this ⊢
        rw [this]

theorem isPrefix_extend (segs : List Str) : ∀ D : Str, D <+: extend D segs := by
  induction segs with
  | nil => intro D; exact List.prefix_refl _
  | cons p rest ih =>
    intro D
    have : extend D (p :: rest) = extend (D ++ ['/'] ++ p) rest := rfl
    rw [this]
    refine List.IsPrefix.trans ?_ (ih _)
    rw [List.append_assoc]
    exact List.prefix_append _ _

theorem parentOf_eq_extend (parts : List Str) :
    parentOf parts = extend ['/', 'l'] parts.dropLast := by
  unfold parentOf
  split_ifs with h
  · cases hd : parts.dropLast with
    | nil =>
      have := congrArg List.length hd
      simp at this
      omega
    | cons x xs => rw [extend_cons_eq_join]; simp
  · have : parts.dropLast = [] := by
      apply List.eq_nil_of_length_eq_zero
      simp; omega
    rw [this]; rfl

/-- The statement of a file names the file at `/l/` followed by its virtual path. -/
theorem parent_fileName_eq (relPath : Str) :
    parentOf (split '/' relPath) ++ ['/'] ++ fileNameOf (split '/' relPath) =
      ['/', 'l', '/'] ++ relPath := by
  have hne := split_ne_nil '/' relPath
  conv_rhs => rw [← join_split '/' relPath]
  generalize split '/' relPath = parts at hne ⊢
  unfold parentOf fileNameOf
  split_ifs with h
  · rw [← join_dropLast_getLast parts h]; simp
  · cases parts with
    | nil => exact absurd rfl hne
    | cons x xs =>
      cases xs with
      | nil => simp [join]
      | cons y ys => simp at h

/-! ### Invariants of the emission loop -/

theorem mem_mkdirPaths {l : List Stmt} {p : Str} : p ∈ mkdirPaths l ↔ Stmt.mkdir p ∈ l := by
  unfold mkdirPaths
  rw [List.mem_filterMap]
  constructor
  · rintro ⟨s, hs, h⟩
    cases s with
    | mkdir q => simp at h; subst h; exact hs
    | createDataFile a b c => simp at h
  · intro h
    exact ⟨_, h, rfl⟩

theorem Good.append {l : List Stmt} {s : Stmt} (hl : Good l)
    (hs : ∀ P, ['/', 'l'] <+: P → P ++ ['/'] <+: s.path → Stmt.mkdir P ∈ l) :
    Good (l ++ [s]) := by
  intro pre s' post h P hP hPs
  rcases List.eq_nil_or_concat post with rfl | ⟨post', x, rfl⟩
  · have h1 : l ++ [s] = pre ++ [s'] := by simpa using h
    obtain ⟨rfl, rfl⟩ := concat_eq_concat h1
    exact hs P hP hPs
  · have h1 : l ++ [s] = (pre ++ s' :: post') ++ [x] := by simpa using h
    obtain ⟨rfl, -⟩ := concat_eq_concat h1
    exact hl pre s' post' rfl P hP hPs

theorem ensureDirs_spec (segs : List Str) (hsegs : ∀ x ∈ segs, '/' ∉ x) :
    ∀ (D : Str) (st : Encoder), Inv st → ['/', 'l'] <+: D →
      (∀ P, ['/', 'l'] <+: P → P ++ ['/'] <+: D ++ ['/'] → Stmt.mkdir P ∈ st.fsjs) →
      Inv (ensureDirs segs D st) ∧
      (∀ P, ['/', 'l'] <+: P → P ++ ['/'] <+: extend D segs ++ ['/'] →
        Stmt.mkdir P ∈ (ensureDirs segs D st).fsjs) ∧
      (∀ p, p ∈ (ensureDirs segs D st).createdDirs ↔ p ∈ st.createdDirs ∨ p ∈ dirChain D segs) ∧
      fileStmts (ensureDirs segs D st).fsjs = fileStmts st.fsjs := by
  induction segs with
  | nil =>
    intro D st hinv _ hanc
    exact ⟨hinv, hanc, by simp [ensureDirs, dirChain], rfl⟩
  | cons p rest ih =>
    intro D st hinv hD hanc
    have hp : '/' ∉ p := hsegs p (by simp)
    have hrest : ∀ x ∈ rest, '/' ∉ x := fun x hx => hsegs x (by simp [hx])
    have hD' : ['/', 'l'] <+: D ++ ['/'] ++ p := by
      rw [List.append_assoc]; exact hD.trans (List.prefix_append _ _)
    have hext : extend D (p :: rest) = extend (D ++ ['/'] ++ p) rest := rfl
    by_cases hmem : D ++ ['/'] ++ p ∈ st.createdDirs
    · have hstep : ensureDirs (p :: rest) D st = ensureDirs rest (D ++ ['/'] ++ p) st := by
        rw [ensureDirs]; exact if_pos hmem
      have hanc' : ∀ P, ['/', 'l'] <+: P → P ++ ['/'] <+: D ++ ['/'] ++ p ++ ['/'] →
          Stmt.mkdir P ∈ st.fsjs := by
        intro P hP hPs
        rcases slash_isPrefix_dir hp hPs with h | h
        · exact hanc P hP h
        · subst h; rw [hinv.created] at hmem; exact mem_mkdirPaths.1 hmem
      obtain ⟨h1, h2, h3, h4⟩ := ih hrest _ st hinv hD' hanc'
      rw [hstep, hext]
      refine ⟨h1, h2, ?_, h4⟩
      intro q
      rw [h3 q]
      simp only [dirChain, List.mem_cons]
      constructor
      · rintro (h | h)
        · exact Or.inl h
        · exact Or.inr (Or.inr h)
      · rintro (h | h | h)
        · exact Or.inl h
        · subst h; exact Or.inl hmem
        · exact Or.inr h
    · have hstep : ensureDirs (p :: rest) D st = ensureDirs rest (D ++ ['/'] ++ p)
          (Encoder.mk (st.fsjs ++ [.mkdir (D ++ ['/'] ++ p)])
            (st.createdDirs ++ [D ++ ['/'] ++ p])) := by
        rw [ensureDirs]; exact if_neg hmem
      have hinv' : Inv (Encoder.mk (st.fsjs ++ [.mkdir (D ++ ['/'] ++ p)])
            (st.createdDirs ++ [D ++ ['/'] ++ p])) := by
        refine ⟨?_, ?_, ?_, ?_, ?_, ?_⟩
        rotate_right
        · intro parent name b64 hm
          exact hinv.args parent name b64 (by simpa using hm)
        · simp [mkdirPaths, List.filterMap_append, hinv.created]
        · exact List.Nodup.append hinv.nodup (by simp) (by simpa using hmem)
        · intro q hq
          rcases List.mem_append.1 hq with h | h
          · exact hinv.rooted q h
          · rw [List.mem_singleton] at h; subst h; exact hD'
        · exact List.mem_append_left _ hinv.root
        · apply hinv.good.append
          intro P hP hPs
          exact hanc P hP (slash_isPrefix_name hp hPs)
      have hanc' : ∀ P, ['/', 'l'] <+: P → P ++ ['/'] <+: D ++ ['/'] ++ p ++ ['/'] →
          Stmt.mkdir P ∈ st.fsjs ++ [Stmt.mkdir (D ++ ['/'] ++ p)] := by
        intro P hP hPs
        rcases slash_isPrefix_dir hp hPs with h | h
        · exact List.mem_append_left _ (hanc P hP h)
        · subst h; simp
      obtain ⟨h1, h2, h3, h4⟩ := ih hrest _ _ hinv' hD' hanc'
      rw [hstep, hext]
      refine ⟨h1, h2, ?_, ?_⟩
      · intro q
        rw [h3 q]
        simp only [dirChain, List.mem_cons, List.mem_append, List.mem_singleton]
        tauto
      · rw [h4]; simp [fileStmts, List.filter_append]

theorem embedFile_ok {codec : Codec} {fs : Node} {file : FileEntry} {st st1 : Encoder}
    (h : embedFile codec fs file st = .ok st1) :
    ∃ data, readFileSync fs file.absPath = .ok data ∧
      st1 = Encoder.mk
        ((ensureDirs (split '/' file.relPath).dropLast ['/', 'l'] st).fsjs ++
          [.createDataFile (parentOf (split '/' file.relPath)) (fileNameOf (split '/' file.relPath))
            (base64 (payload codec (fileNameOf (split '/' file.relPath)) data))])
        (ensureDirs (split '/' file.relPath).dropLast ['/', 'l'] st).createdDirs := by
  unfold embedFile at h
  cases hr : readFileSync fs file.absPath with
  | error e => simp [hr] at h
  | ok data =>
    simp only [hr] at h
    injection h with h
    exact ⟨data, rfl, h.symm⟩

theorem fileNameOf_no_slash (relPath : Str) : '/' ∉ fileNameOf (split '/' relPath) := by
  have hne := split_ne_nil '/' relPath
  have hall := not_mem_of_mem_split '/' relPath
  generalize split '/' relPath = parts at hne hall
  unfold fileNameOf
  rw [List.getLastD_eq_getLast?, List.getLast?_eq_getLast _ hne]
  exact hall _ (List.getLast_mem hne)

theorem root_anc {st : Encoder} (hinv : Inv st) :
    ∀ P, ['/', 'l'] <+: P → P ++ ['/'] <+: ['/', 'l'] ++ ['/'] → Stmt.mkdir P ∈ st.fsjs := by
  intro P hP hPs
  have h1 := hP.length_le
  have h2 := hPs.length_le
  simp at h1 h2
  have hlen : P.length = ['/', 'l'].length := by simp; omega
  have : P = ['/', 'l'] := (List.IsPrefix.eq_of_length hP hlen.symm).symm
  subst this
  have := hinv.root
  rw [hinv.created] at this
  exact mem_mkdirPaths.1 this

theorem embedFile_spec {codec : Codec} {fs : Node} {file : FileEntry} {st st1 : Encoder}
    (hinv : Inv st) (h : embedFile codec fs file st = .ok st1) :
    Inv st1 ∧
    (∀ p, p ∈ st1.createdDirs ↔
      p ∈ st.createdDirs ∨ p ∈ dirChain ['/', 'l'] (split '/' file.relPath).dropLast) ∧
    ∃ data, readFileSync fs file.absPath = .ok data ∧
      fileStmts st1.fsjs = fileStmts st.fsjs ++
        [.createDataFile (parentOf (split '/' file.relPath)) (fileNameOf (split '/' file.relPath))
          (base64 (payload codec (fileNameOf (split '/' file.relPath)) data))] := by
  obtain ⟨data, hdata, rfl⟩ := embedFile_ok h
  have hsegs : ∀ x ∈ (split '/' file.relPath).dropLast, '/' ∉ x := fun x hx =>
    not_mem_of_mem_split '/' file.relPath x (List.dropLast_subset _ hx)
  obtain ⟨h1, h2, h3, h4⟩ := ensureDirs_spec _ hsegs ['/', 'l'] st hinv (List.prefix_refl _)
    (root_anc hinv)
  refine ⟨⟨?c, h1.nodup, h1.rooted, h1.root, ?g, ?a⟩, h3, data, hdata, ?f⟩
  case c =>
    show _ = mkdirPaths (_ ++ _)
    rw [h1.created]
    simp [mkdirPaths, List.filterMap_append]
  case g =>
    apply h1.good.append
    intro P hP hPs
    apply h2 P hP
    rw [← parentOf_eq_extend]
    exact slash_isPrefix_name (fileNameOf_no_slash _) hPs
  case a =>
    intro parent name b64 hm
    rcases List.mem_append.1 hm with hm | hm
    · exact h1.args parent name b64 hm
    · rw [List.mem_singleton] at hm
      injection hm with e1 e2 e3
      subst e1 e2
      exact ⟨parentOf_eq_extend _ ▸ isPrefix_extend _ _, fileNameOf_no_slash _⟩
  case f =>
    simp [fileStmts, List.filter_append] at h4 ⊢
    rw [h4]

theorem embedAll_spec {codec : Codec} {fs : Node} (files : List FileEntry) :
    ∀ {st st1 : Encoder}, Inv st → embedAll codec fs files st = .ok st1 →
    Inv st1 ∧
    (∀ p, p ∈ st1.createdDirs ↔ p ∈ st.createdDirs ∨
      ∃ f ∈ files, p ∈ dirChain ['/', 'l'] (split '/' f.relPath).dropLast) ∧
    ∃ datas, List.Forall₂ (fun f d => readFileSync fs f.absPath = .ok d) files datas ∧
      fileStmts st1.fsjs = fileStmts st.fsjs ++ List.zipWith (fileStmt codec) files datas := by
  induction files with
  | nil =>
    intro st st1 hinv h
    simp only [embedAll] at h
    injection h with h
    subst h
    exact ⟨hinv, by simp, [], List.Forall₂.nil, by simp⟩
  | cons f rest ih =>
    intro st st1 hinv h
    rw [embedAll] at h
    cases hf : embedFile codec fs f st with
    | error e => simp [hf] at h
    | ok st2 =>
      simp only [hf] at h
      obtain ⟨a1, a2, d, hd, a3⟩ := embedFile_spec hinv hf
      obtain ⟨b1, b2, ds, hds, b3⟩ := ih a1 h
      refine ⟨b1, ?_, d :: ds, List.Forall₂.cons hd hds, ?_⟩
      · intro p
        rw [b2 p, a2 p]
        simp only [List.mem_cons, exists_eq_or_imp]
        tauto
      · rw [b3, a3]
        simp [fileStmt]

theorem ensureDirs_isPrefix (segs : List Str) :
    ∀ (D : Str) (st : Encoder), st.fsjs <+: (ensureDirs segs D st).fsjs := by
  induction segs with
  | nil => intro D st; exact List.prefix_refl _
  | cons p rest ih =>
    intro D st
    rw [ensureDirs]
    split_ifs
    · exact ih _ st
    · exact (List.prefix_append st.fsjs [Stmt.mkdir (D ++ ['/'] ++ p)]).trans
        (ih _ (Encoder.mk _ _))

theorem embedAll_isPrefix {codec : Codec} {fs : Node} (files : List FileEntry) :
    ∀ {st st1 : Encoder}, embedAll codec fs files st = .ok st1 → st.fsjs <+: st1.fsjs := by
  induction files with
  | nil =>
    intro st st1 h
    simp only [embedAll] at h
    injection h with h
    subst h
    exact List.prefix_refl _
  | cons f rest ih =>
    intro st st1 h
    rw [embedAll] at h
    cases hf : embedFile codec fs f st with
    | error e => rw [hf] at h; cases h
    | ok st2 =>
      rw [hf] at h
      obtain ⟨data, -, rfl⟩ := embedFile_ok hf
      exact ((ensureDirs_isPrefix _ _ st).trans (List.prefix_append _ _)).trans (ih h)

theorem inv_init : Inv { fsjs := [.mkdir ['/', 'l']], createdDirs := [['/', 'l']] } := by
  refine ⟨rfl, by simp, by simp, by simp, ?_, by simp⟩
  intro pre s post h P hP hPs
  cases pre with
  | nil =>
    simp at h
    obtain ⟨rfl, -⟩ := h
    have h1 := hP.length_le
    have h2 := hPs.length_le
    simp [Stmt.path] at h1 h2
    omega
  | cons x xs =>
    have := congrArg List.length h
    simp at this

theorem emit_spec {codec : Codec} {fs : Node} {files : List FileEntry} {lines : List Stmt}
    (h : emit codec fs files = .ok lines) :
    Good lines ∧
    (∀ parent name b64, Stmt.createDataFile parent name b64 ∈ lines →
      ['/', 'l'] <+: parent ∧ '/' ∉ name) ∧
    (mkdirPaths lines).Nodup ∧
    (∀ p ∈ mkdirPaths lines, ['/', 'l'] <+: p) ∧
    (∀ p, p ∈ mkdirPaths lines ↔ p = ['/', 'l'] ∨
      ∃ f ∈ files, p ∈ dirChain ['/', 'l'] (split '/' f.relPath).dropLast) ∧
    lines.head? = some (.mkdir ['/', 'l']) ∧
    ∃ datas, List.Forall₂ (fun f d => readFileSync fs f.absPath = .ok d) files datas ∧
      fileStmts lines = List.zipWith (fileStmt codec) files datas := by
  unfold emit at h
  cases he : embedAll codec fs files { fsjs := [.mkdir ['/', 'l']], createdDirs := [['/', 'l']] } with
  | error e => rw [he] at h; cases h
  | ok st =>
    rw [he] at h
    injection h with h
    subst h
    obtain ⟨a1, a2, ds, hds, a3⟩ := embedAll_spec files inv_init he
    refine ⟨a1.good, a1.args, a1.created ▸ a1.nodup, a1.created ▸ a1.rooted, ?_, ?_, ds, hds, ?_⟩
    · intro p
      rw [← a1.created, a2 p]
      simp
    · obtain ⟨t, ht⟩ := embedAll_isPrefix files he
      rw [← ht]; rfl
    · simpa [fileStmts] using a3

/-! ### Directory prefixes of a virtual path -/

theorem buildFsJs_ok {codec : Codec} {fs : Node} {root : Path} {patterns : List Str}
    {text : Str} :
    buildFsJs codec fs root patterns = .ok text ↔
      ∃ allFiles lines, collect fs root patterns [] = .ok allFiles ∧
        emit codec fs allFiles = .ok lines ∧ text = scriptText lines := by
  rw [buildFsJs]
  cases hc : collect fs root patterns [] with
  | error e => simp
  | ok allFiles =>
    cases he : emit codec fs allFiles with
    | error e => simp [he]
    | ok lines =>
      simp only [Except.ok.injEq, exists_and_left, exists_eq_left', he]
      exact eq_comm

theorem example_collect :
    collect exampleFs exampleRoot examplePatterns [] = .ok exampleManifest := by decide

theorem example_emit : emit asciiCodec exampleFs exampleManifest = .ok exampleScript := by
  decide

theorem example_buildFsJs :
    buildFsJs asciiCodec exampleFs exampleRoot examplePatterns =
      .ok (scriptText exampleScript) :=
  buildFsJs_ok.2 ⟨exampleManifest, exampleScript, example_collect, example_emit, rfl⟩

theorem starLoop_some {cls : Char → Bool} {k : Option Char → Str → Option Nat} :
    ∀ {s : Str} {prev : Option Char} {n : Nat}, starLoop cls k prev s = some n →
      ∃ j prev', j ≤ n ∧ k prev' (s.drop j) = some (n - j) := by
  intro s
  induction s with
  | nil =>
    intro prev n h
    exact ⟨0, prev, Nat.zero_le _, by simpa [starLoop] using h⟩
  | cons c cs ih =>
    intro prev n h
    rw [starLoop] at h
    split_ifs at h with hc
    · cases hr : starLoop cls k (some c) cs with
      | none =>
        rw [hr] at h
        exact ⟨0, prev, Nat.zero_le _, by simpa using h⟩
      | some m =>
        rw [hr] at h
        injection h with h
        subst h
        obtain ⟨j, prev', hj, hk⟩ := ih hr
        exact ⟨j + 1, prev', by omega, by simpa using hk⟩
    · exact ⟨0, prev, Nat.zero_le _, by simpa using h⟩

theorem matchHere_lit_mem (items : List Item) :
    ∀ {s : Str} {prev : Option Char} {n : Nat}, matchHere items prev s = some n →
      ∀ c, Item.lit c ∈ items → c ∈ s.take n := by
  induction items with
  | nil => intro s prev n _ c hc; simp at hc
  | cons it items ih =>
    intro s prev n h c hc
    cases it with
    | bol =>
      rw [matchHere] at h
      split_ifs at h
      exact ih h c (by simpa using hc)
    | eol =>
      rw [matchHere] at h
      split_ifs at h
      exact ih h c (by simpa using hc)
    | lit d =>
      cases s with
      | nil => simp [matchHere] at h
      | cons e s =>
        rw [matchHere] at h
        split_ifs at h with hed
        subst hed
        cases hm : matchHere items (some e) s with
        | none => simp [hm] at h
        | some m =>
          simp [hm] at h
          subst h
          rcases List.mem_cons.1 hc with h1 | h1
          · injection h1 with h1
            subst h1
            simp
          · simpa using Or.inr (ih hm c h1)
    | star cls =>
      rw [matchHere] at h
      obtain ⟨j, prev', hj, hk⟩ := starLoop_some h
      have := ih hk c (by simpa using hc)
      have hsub : (s.drop j).take (n - j) = (s.take n).drop j := by
        rw [List.drop_take]
      rw [hsub] at this
      exact List.mem_of_mem_drop this

theorem execFrom_some {re : List Item} :
    ∀ {s : Str} {prev : Option Char} {i j n : Nat}, execFrom re prev s i = some (j, n) →
      i ≤ j ∧ ∃ prev', matchHere re prev' (s.drop (j - i)) = some n := by
  intro s
  induction s with
  | nil =>
    intro prev i j n h
    rw [execFrom] at h
    cases hm : matchHere re prev [] with
    | none => simp [hm] at h
    | some m =>
      simp [hm] at h
      obtain ⟨rfl, rfl⟩ := h
      exact ⟨le_refl _, prev, by simpa using hm⟩
  | cons c cs ih =>
    intro prev i j n h
    rw [execFrom] at h
    cases hm : matchHere re prev (c :: cs) with
    | some m =>
      rw [hm] at h
      simp at h
      obtain ⟨rfl, rfl⟩ := h
      exact ⟨le_refl _, prev, by simpa using hm⟩
    | none =>
      rw [hm] at h
      obtain ⟨hle, prev', hk⟩ := ih h
      refine ⟨by omega, prev', ?_⟩
      have : j - i = (j - (i + 1)) + 1 := by omega
      rw [this]
      simpa using hk

/-- The first match of `versionLine` contains a double quote. -/
theorem quote_mem_match {s : Str} {i n : Nat}
    (h : execFrom versionLine none s 0 = some (i, n)) : '"' ∈ (s.drop i).take n := by
  obtain ⟨-, prev', hm⟩ := execFrom_some h
  exact matchHere_lit_mem versionLine hm '"' (by simp [versionLine])

theorem replaceFirst_of_none {re : List Item} {repl s : Str}
    (h : execFrom re none s 0 = none) : replaceFirst re repl s = s := by
  rw [replaceFirst, h]

/-- C4 (as the code has it): only the first match is replaced, so a second
application changes nothing exactly when the once-patched text has no match
of the pattern left. -/
theorem patchConf_twice_iff (s : Str) :
    patchConf (patchConf s) = patchConf s ↔ execFrom versionLine none (patchConf s) 0 = none := by
  constructor
  · intro h
    cases hm : execFrom versionLine none (patchConf s) 0 with
    | none => rfl
    | some r =>
      exfalso
      obtain ⟨i, n⟩ := r
      have hq := quote_mem_match hm
      generalize patchConf s = t at h hm hq
      have h1 : patchConf t = t.take i ++ placeholder ++ t.drop (i + n) := by
        rw [patchConf, replaceFirst, hm]
      have h2 : t = t.take i ++ ((t.drop i).take n ++ t.drop (i + n)) := by
        conv_lhs => rw [← List.take_append_drop i t, ← List.take_append_drop n (t.drop i)]
        rw [List.drop_drop, Nat.add_comm]
      rw [h1, List.append_assoc] at h
      have h3 := List.append_cancel_left (h.trans h2)
      have h4 := List.append_inj_left' h3 rfl
      rw [← h4] at hq
      revert hq
      decide
  · intro h
    exact replaceFirst_of_none h

/-- C4 fails as stated: with two version lines the second application
replaces the second line. -/
theorem patchConf_not_idempotent :
    patchConf (patchConf "t.version = \"1\"\nt.version = \"2\"".toList) ≠
      patchConf "t.version = \"1\"\nt.version = \"2\"".toList := by
  decide

/-- C5 at a `conf.lua` with a blank line after the version line: the match
runs through the line terminator of the version line (the final `\s*` takes
it, and `$` holds before the terminator of the blank line), so the blank line
is gone from the patched text. -/
theorem patchConf_eats_blank_line :
    patchConf
      "function love.conf(t)\n    t.version = \"11.4\"\n\n    t.window.width = 640\nend\n".toList =
      ("function love.conf(t)\n    -- t.version removed for web build compatibility\n" ++
        "    t.window.width = 640\nend\n").toList ∧
    patchConf
      "function love.conf(t)\n    t.version = \"11.4\"\n\n    t.window.width = 640\nend\n".toList ≠
      ("function love.conf(t)\n    -- t.version removed for web build compatibility\n\n" ++
        "    t.window.width = 640\nend\n").toList := by
  decide

/-! ### Base64 -/

theorem b64char_ne_newline_fin : ∀ n : Fin 64, b64char n.val ≠ '\n' := by
  decide

theorem foldl_append_eq {α β : Type} (g : α → List β) (l : List α) :
    ∀ acc : List β, l.foldl (fun a x => a ++ g x) acc = acc ++ (l.map g).flatten := by
  induction l with
  | nil => intro acc; simp
  | cons x xs ih => intro acc; simp [ih]

theorem scriptText_eq (lines : List Stmt) :
    scriptText lines = (lines.map (fun s => s.line ++ ['\n'])).flatten := by
  rw [scriptText, foldl_append_eq]
  simp only [List.nil_append]
  congr 1
  apply List.map_congr_left
  intro s _
  cases s <;> simp [Stmt.render, Stmt.line]

theorem split_append_sep {sep : Char} (l rest : Str) (h : sep ∉ l) :
    split sep (l ++ sep :: rest) = l :: split sep rest := by
  induction l with
  | nil => simp [split]
  | cons c cs ih =>
    simp only [List.mem_cons, not_or] at h
    rw [List.cons_append, split, if_neg (fun e => h.1 e.symm), ih h.2]

theorem split_flatten {sep : Char} (ls : List Str) (h : ∀ l ∈ ls, sep ∉ l) :
    split sep (ls.map (fun l => l ++ [sep])).flatten = ls ++ [[]] := by
  induction ls with
  | nil => rfl
  | cons l ls ih =>
    have h1 := h l (by simp)
    have h2 : ∀ x ∈ ls, sep ∉ x := fun x hx => h x (by simp [hx])
    simp only [List.map_cons, List.flatten_cons, List.append_assoc, List.singleton_append,
      List.cons_append]
    rw [split_append_sep l _ h1, List.nil_append, ih h2]

theorem mem_of_mem_split {sep : Char} (s : Str) : ∀ x ∈ split sep s, ∀ c ∈ x, c ∈ s := by
  induction s with
  | nil => simp [split]
  | cons d ds ih =>
    unfold split
    split_ifs with hd
    · intro x hx c hc
      rcases List.mem_cons.1 hx with rfl | hx
      · simp at hc
      · exact List.mem_cons_of_mem _ (ih x hx c hc)
    · cases hs : split sep ds with
      | nil => exact absurd hs (split_ne_nil sep ds)
      | cons p ps =>
        rw [hs] at ih
        intro x hx c hc
        rcases List.mem_cons.1 hx with rfl | hx
        · rcases List.mem_cons.1 hc with rfl | hc
          · simp
          · exact List.mem_cons_of_mem _ (ih p (by simp) c hc)
        · exact List.mem_cons_of_mem _ (ih x (by simp [hx]) c hc)

theorem mem_dirChain_chars (segs : List Str) : ∀ (D : Str), ∀ p ∈ dirChain D segs, ∀ c ∈ p,
    c ∈ D ∨ c = '/' ∨ ∃ x ∈ segs, c ∈ x := by
  induction segs with
  | nil => intro D p hp; simp [dirChain] at hp
  | cons q rest ih =>
    intro D p hp c hc
    rw [dirChain] at hp
    rcases List.mem_cons.1 hp with rfl | hp
    · simp only [List.mem_append, List.mem_singleton] at hc
      rcases hc with (h | h) | h
      · exact Or.inl h
      · exact Or.inr (Or.inl h)
      · exact Or.inr (Or.inr ⟨q, by simp, h⟩)
    · rcases ih _ p hp c hc with h | h | ⟨x, hx, h⟩
      · simp only [List.mem_append, List.mem_singleton] at h
        rcases h with (h | h) | h
        · exact Or.inl h
        · exact Or.inr (Or.inl h)
        · exact Or.inr (Or.inr ⟨q, by simp, h⟩)
      · exact Or.inr (Or.inl h)
      · exact Or.inr (Or.inr ⟨x, by simp [hx], h⟩)

theorem newline_not_mem_base64 (bs : List Byte) : '\n' ∉ base64 bs := by
  have key : ∀ n : Nat, n < 64 → b64char n ≠ '\n' := fun n hn => b64char_ne_newline_fin ⟨n, hn⟩
  induction bs using base64.induct with
  | case1 => simp [base64]
  | case2 a =>
    have ha := a.isLt
    simp only [base64, List.mem_cons, List.mem_singleton, not_or, List.not_mem_nil, or_false]
    exact ⟨fun e => key _ (by omega) e.symm, fun e => key _ (by omega) e.symm, by decide,
      by decide⟩
  | case3 a b =>
    have ha := a.isLt
    have hb := b.isLt
    simp only [base64, List.mem_cons, List.mem_singleton, not_or, List.not_mem_nil, or_false]
    exact ⟨fun e => key _ (by omega) e.symm, fun e => key _ (by omega) e.symm,
      fun e => key _ (by omega) e.symm, by decide⟩
  | case4 a b c rest ih =>
    have ha := a.isLt
    have hb := b.isLt
    have hc := c.isLt
    simp only [base64, List.mem_cons, not_or]
    exact ⟨fun e => key _ (by omega) e.symm, fun e => key _ (by omega) e.symm,
      fun e => key _ (by omega) e.symm, fun e => key _ (by omega) e.symm, ih⟩

theorem mem_zipWith_of_forall₂ {α β γ : Type} {R : α → β → Prop} {as : List α} {bs : List β}
    (h : List.Forall₂ R as bs) (g : α → β → γ) :
    (List.zipWith g as bs).length = as.length ∧
    ∀ s ∈ List.zipWith g as bs, ∃ a ∈ as, ∃ b, s = g a b := by
  induction h with
  | nil => simp
  | cons _ _ ih =>
    refine ⟨by simp [ih.1], ?_⟩
    intro s hs
    simp only [List.zipWith_cons_cons, List.mem_cons] at hs
    rcases hs with rfl | hs
    · exact ⟨_, by simp, _, rfl⟩
    · obtain ⟨a, ha, b, hb⟩ := ih.2 s hs
      exact ⟨a, by simp [ha], b, hb⟩

theorem length_mkdirPaths_add (l : List Stmt) :
    l.length = (mkdirPaths l).length + (fileStmts l).length := by
  induction l with
  | nil => rfl
  | cons s l ih =>
    cases s with
    | mkdir p => simp [mkdirPaths, fileStmts] at ih ⊢; omega
    | createDataFile a b c => simp [mkdirPaths, fileStmts] at ih ⊢; omega

theorem mem_fileStmts {l : List Stmt} {parent name b64 : Str}
    (h : Stmt.createDataFile parent name b64 ∈ l) :
    Stmt.createDataFile parent name b64 ∈ fileStmts l := by
  simp [fileStmts, h]

/-- C7 (as the code has it): when no virtual path of the manifest contains a
newline, the text of the script is its statements, one per line, each line
ended by a newline: splitting the text at newlines gives exactly the lines of
the statements (and the empty rest after the last newline); the first line
is the root directory statement, every directory path begins with `/l`, and
the number of lines is the number of directory statements plus the number of
manifest entries. -/
theorem script_lines (codec : Codec) (fs : Node) (allFiles : List FileEntry)
    (lines : List Stmt) (h : emit codec fs allFiles = .ok lines)
    (hnl : ∀ f ∈ allFiles, '\n' ∉ f.relPath) :
    scriptText lines = (lines.map (fun s => s.line ++ ['\n'])).flatten ∧
    split '\n' (scriptText lines) = lines.map Stmt.line ++ [[]] ∧
    (lines.map Stmt.line).head? = some "FS.mkdir('/l');".toList ∧
    (∀ p, Stmt.mkdir p ∈ lines → ['/', 'l'] <+: p) ∧
    (lines.map Stmt.line).length = (mkdirPaths lines).length + allFiles.length := by
  obtain ⟨-, -, -, hrooted, hmem, hhead, datas, hdatas, hfiles⟩ := emit_spec h
  obtain ⟨hlen, hzip⟩ := mem_zipWith_of_forall₂ hdatas (fileStmt codec)
  have hline : ∀ l ∈ lines.map Stmt.line, '\n' ∉ l := by
    intro l hl
    obtain ⟨s, hs, rfl⟩ := List.mem_map.1 hl
    cases s with
    | mkdir p =>
      have hp : '\n' ∉ p := by
        intro hc
        rcases (hmem p).1 (mem_mkdirPaths.2 hs) with rfl | ⟨f, hf, hch⟩
        · revert hc; decide
        · rcases mem_dirChain_chars _ _ p hch _ hc with h1 | h1 | ⟨x, hx, h1⟩
          · revert h1; decide
          · revert h1; decide
          · exact hnl f hf (mem_of_mem_split _ x (List.dropLast_subset _ hx) _ h1)
      simp only [Stmt.line, List.mem_append, not_or]
      exact ⟨⟨by decide, hp⟩, by decide⟩
    | createDataFile parent name b64 =>
      have hs' := mem_fileStmts hs
      rw [hfiles] at hs'
      obtain ⟨f, hf, d, hd⟩ := hzip _ hs'
      rw [fileStmt] at hd
      injection hd with e1 e2 e3
      have hpn : '\n' ∉ parent ++ ['/'] ++ name := by
        rw [e1, e2, parent_fileName_eq]
        simp only [List.mem_append, not_or]
        exact ⟨by decide, hnl f hf⟩
      simp only [List.mem_append, not_or] at hpn
      simp only [Stmt.line, List.mem_append, not_or]
      refine ⟨⟨⟨⟨⟨⟨by decide, hpn.1.1⟩, by decide⟩, hpn.2⟩, by decide⟩, ?_⟩, by decide⟩
      rw [e3]
      exact newline_not_mem_base64 _
  refine ⟨scriptText_eq lines, ?_, ?_, ?_, ?_⟩
  · rw [scriptText_eq]
    have : lines.map (fun s => s.line ++ ['\n']) =
        (lines.map Stmt.line).map (fun l => l ++ ['\n']) := by
      rw [List.map_map]; rfl
    rw [this, split_flatten _ hline]
  · cases lines with
    | nil => simp at hhead
    | cons s t =>
      simp only [List.head?_cons, Option.some.injEq] at hhead
      subst hhead
      rfl
  · intro p hp
    exact hrooted p (mem_mkdirPaths.2 hp)
  · rw [List.length_map, length_mkdirPaths_add lines, hfiles, hlen]

/-- C7 fails as stated: a file name with a newline puts its statement on two
lines, so the script of two statements has three newline-terminated lines,
and the second of them is no statement. -/
theorem newline_name_splits_line :
    emit asciiCodec newlineFs newlineManifest = .ok newlineScript ∧
    newlineScript.length = 2 ∧
    split '\n' (scriptText newlineScript) =
      ["FS.mkdir('/l');".toList, "FS.createDataFile('/l','a".toList,
        "b',FS.DEC(''),!0,!0,!0);".toList, []] := by
  decide

/-- C7 on the example: five statements on five lines. -/
theorem script_lines_example :
    emit asciiCodec exampleFs exampleManifest = .ok exampleScript ∧
    (∀ f ∈ exampleManifest, '\n' ∉ f.relPath) ∧
    scriptText exampleScript = (exampleScript.map (fun s => s.line ++ ['\n'])).flatten ∧
    split '\n' (scriptText exampleScript) = exampleScript.map Stmt.line ++ [[]] ∧
    (exampleScript.map Stmt.line).head? = some "FS.mkdir('/l');".toList ∧
    (∀ p, Stmt.mkdir p ∈ exampleScript → ['/', 'l'] <+: p) ∧
    (exampleScript.map Stmt.line).length = (mkdirPaths exampleScript).length +
      exampleManifest.length :=
  ⟨by decide, by decide,
    script_lines asciiCodec exampleFs exampleManifest exampleScript (by decide) (by decide)⟩

/-! ### The tree collector -/

/-- Induction over a file-system object and its listings together. -/
theorem node_listing_induction {P : Node → Prop} {Q : List (Str × Node) → Prop}
    (hfile : ∀ data, P (.file data)) (hdir : ∀ entries, Q entries → P (.dir entries))
    (hother : P .other) (hnil : Q [])
    (hcons : ∀ name node rest, P node → Q rest → Q ((name, node) :: rest)) :
    (∀ node, P node) ∧ (∀ entries, Q entries) := by
  have hP : ∀ node, P node := fun node =>
    @Node.rec P Q (fun e => P e.2) hfile hdir hother hnil
      (fun head tail hh ht => hcons head.1 head.2 tail hh ht) (fun _ _ h => h) node
  refine ⟨hP, fun entries => ?_⟩
  induction entries with
  | nil => exact hnil
  | cons e rest ih => exact hcons e.1 e.2 rest (hP e.2) ih

theorem split_entryName {name : Str} (h : entryName name = true) :
    split '/' name = [name] := by
  apply split_of_not_mem
  simp [entryName] at h
  exact h.2

theorem pathJoin_entryName (dir : Path) {name : Str} (h : entryName name = true) :
    pathJoin dir name = dir ++ [name] := by
  have h' := h
  simp only [entryName, Bool.and_eq_true, decide_eq_true_eq, ne_eq] at h'
  rw [pathJoin, split_entryName h]
  simp only [List.foldl_cons, List.foldl_nil, pathStep]
  rw [if_neg (by simp [h'.1.1.1, h'.1.1.2]), if_neg h'.1.2]

theorem stripCommon_append (root q : Path) : stripCommon root (root ++ q) = ([], q) := by
  induction root with
  | nil => cases q <;> rfl
  | cons a as ih => simp [stripCommon, ih]

theorem pathRelative_append (root q : Path) : pathRelative root (root ++ q) = join ['/'] q := by
  simp [pathRelative, stripCommon_append]

theorem walk_eq_regularFiles (ok : Str → Bool) (hok : ∀ n, ok n = true → entryName n = true) :
    (∀ node, nodeOk ok node = true → ∀ absPath root : Path,
      walkEntry node absPath root = (regularFilesAt node).map (fun p =>
        { absPath := absPath ++ p,
          relPath := replaceBackslashes (pathRelative root (absPath ++ p)) })) ∧
    (∀ entries, listingOk ok entries = true → ∀ dir root : Path,
      walkDir entries dir root = (regularFilesUnder entries).map (fun p =>
        { absPath := dir ++ p,
          relPath := replaceBackslashes (pathRelative root (dir ++ p)) })) := by
  apply node_listing_induction
  · intro data _ absPath root
    simp [walkEntry, regularFilesAt]
  · intro entries ih h absPath root
    rw [nodeOk] at h
    rw [walkEntry, regularFilesAt, ih h]
  · intro _ absPath root
    simp [walkEntry, regularFilesAt]
  · intro _ dir root
    simp [walkDir, regularFilesUnder]
  · intro name node rest ihn ihr h dir root
    rw [listingOk] at h
    simp only [Bool.and_eq_true] at h
    obtain ⟨⟨⟨h1, -⟩, h3⟩, h4⟩ := h
    rw [walkDir, regularFilesUnder, ihn h3, ihr h4, pathJoin_entryName dir (hok name h1)]
    simp [List.map_append, List.map_map, Function.comp_def]

theorem lookup_dir_cons (entries : List (Str × Node)) (s : Str) (p : Path) :
    lookup (.dir entries) (s :: p) =
      match lookupEntry s entries with
      | some child => lookup child p
      | none => none := by
  cases h : lookupEntry s entries <;> simp [lookup, h]

theorem lookup_nil (node : Node) : lookup node [] = some node := by
  cases node <;> rfl

theorem regularFiles_iff_lookup (ok : Str → Bool) :
    (∀ node, nodeOk ok node = true →
      (regularFilesAt node).Nodup ∧
      ∀ p, p ∈ regularFilesAt node ↔ ∃ data, lookup node p = some (.file data)) ∧
    (∀ entries, listingOk ok entries = true →
      (regularFilesUnder entries).Nodup ∧
      ∀ p, p ∈ regularFilesUnder entries ↔ ∃ data, lookup (.dir entries) p = some (.file data)) := by
  apply node_listing_induction
  · intro data _
    refine ⟨by simp [regularFilesAt], fun p => ?_⟩
    cases p with
    | nil => simp [regularFilesAt, lookup]
    | cons s q => simp [regularFilesAt, lookup]
  · intro entries ih h
    rw [nodeOk] at h
    rw [regularFilesAt]
    exact ih h
  · intro _
    refine ⟨by simp [regularFilesAt], fun p => ?_⟩
    cases p with
    | nil => simp [regularFilesAt, lookup]
    | cons s q => simp [regularFilesAt, lookup]
  · intro _
    refine ⟨by simp [regularFilesUnder], fun p => ?_⟩
    cases p with
    | nil => simp [regularFilesUnder, lookup]
    | cons s q => simp [regularFilesUnder, lookup, lookupEntry]
  · intro name node rest ihn ihr h
    rw [listingOk] at h
    simp only [Bool.and_eq_true, Option.isNone_iff_eq_none] at h
    obtain ⟨⟨⟨-, h2⟩, h3⟩, h4⟩ := h
    obtain ⟨n1, n2⟩ := ihn h3
    obtain ⟨r1, r2⟩ := ihr h4
    have hmem : ∀ p, p ∈ regularFilesUnder ((name, node) :: rest) ↔
        ∃ data, lookup (.dir ((name, node) :: rest)) p = some (.file data) := by
      intro p
      rw [regularFilesUnder, List.mem_append, List.mem_map]
      cases p with
      | nil =>
        have := (r2 []).not.2 (by simp [lookup_nil])
        simp [lookup_nil, this]
      | cons s q =>
        rw [lookup_dir_cons, lookupEntry]
        by_cases hs : name = s
        · subst hs
          have hnot : name :: q ∉ regularFilesUnder rest := by
            rw [r2, lookup_dir_cons, h2]
            simp
          simp only [if_true, hnot, or_false]
          rw [← n2 q]
          constructor
          · rintro ⟨a, ha, hq⟩
            injection hq with _ hq
            subst hq
            exact ha
          · intro hq
            exact ⟨q, hq, rfl⟩
        · simp only [if_neg hs]
          rw [r2, lookup_dir_cons]
          constructor
          · rintro (⟨a, -, hq⟩ | hq)
            · injection hq with hq _
              exact absurd hq hs
            · exact hq
          · intro hq
            exact Or.inr hq
    refine ⟨?_, hmem⟩
    rw [regularFilesUnder, List.nodup_append]
    refine ⟨n1.map (fun a b hab => by injection hab), r1, ?_⟩
    intro x hx1 hx2
    obtain ⟨q, -, rfl⟩ := List.mem_map.1 hx1
    rw [r2, lookup_dir_cons, h2] at hx2
    simp at hx2

theorem collect_error {fs : Node} {root : Path} (patterns : List Str) :
    ∀ (acc : List FileEntry) (p : Str) (e : FsError), p ∈ patterns →
      statSync fs (pathJoin root p) (trailingSlash p) = .error e →
      ∃ e', collect fs root patterns acc = .error e' := by
  induction patterns with
  | nil => intro acc p e hp; simp at hp
  | cons q rest ih =>
    intro acc p e hp hstat
    rw [collect]
    cases hq : statSync fs (pathJoin root q) (trailingSlash q) with
    | error e' => exact ⟨e', rfl⟩
    | ok stat =>
      rcases List.mem_cons.1 hp with rfl | hp
      · rw [hq] at hstat; cases hstat
      · exact ih _ p e hp hstat

theorem collect_ok {fs : Node} {root : Path} (patterns : List Str) :
    ∀ (acc manifest : List FileEntry), collect fs root patterns acc = .ok manifest →
      ∃ stats, List.Forall₂
          (fun pattern stat => statSync fs (pathJoin root pattern) (trailingSlash pattern) = .ok stat)
          patterns stats ∧
        manifest = acc ++ (List.zipWith (patternFiles root) patterns stats).flatten := by
  induction patterns with
  | nil =>
    intro acc manifest h
    rw [collect] at h
    injection h with h
    exact ⟨[], List.Forall₂.nil, by simp [h]⟩
  | cons q rest ih =>
    intro acc manifest h
    rw [collect] at h
    cases hq : statSync fs (pathJoin root q) (trailingSlash q) with
    | error e => rw [hq] at h; cases h
    | ok stat =>
      rw [hq] at h
      obtain ⟨stats, hstats, hm⟩ := ih _ _ h
      exact ⟨stat :: stats, List.Forall₂.cons hq hstats, by simp [hm]⟩

/-- C10: when a pattern of the list names nothing under the root, the
collection loop fails, and `buildFsJs` fails with the same error and returns
no script, wherever the pattern stands in the list. -/
theorem missing_pattern_aborts (codec : Codec) (fs : Node) (root : Path)
    (patterns : List Str) (p : Str) (hp : p ∈ patterns)
    (hmissing : lookup fs (pathJoin root p) = none) :
    ∃ e, collect fs root patterns [] = .error e ∧
      buildFsJs codec fs root patterns = .error e := by
  have hstat : statSync fs (pathJoin root p) (trailingSlash p) =
      .error (.stat (pathJoin root p)) := by
    rw [statSync, hmissing]
  obtain ⟨e, he⟩ := collect_error patterns [] p _ hp hstat
  exact ⟨e, he, by rw [buildFsJs, he]⟩

/-- C10 on the example: a missing pattern in the middle of the list. -/
theorem missing_pattern_aborts_example :
    "nothing.lua".toList ∈ ["main.lua".toList, "nothing.lua".toList, "src".toList] ∧
    lookup exampleFs (pathJoin exampleRoot "nothing.lua".toList) = none ∧
    ∃ e, collect exampleFs exampleRoot
        ["main.lua".toList, "nothing.lua".toList, "src".toList] [] = .error e ∧
      buildFsJs asciiCodec exampleFs exampleRoot
        ["main.lua".toList, "nothing.lua".toList, "src".toList] = .error e :=
  ⟨by decide, rfl,
    missing_pattern_aborts asciiCodec exampleFs exampleRoot _ "nothing.lua".toList
      (by decide) rfl⟩

/-- C8 (as the code has it): `walkDir` is total; on a well-formed listing it
returns the regular files below the directory, each once, depth-first in
listing order, each with its path below `dir` and with a `relPath` that is its
path relative to the root, joined with `/`, in which every backslash is
replaced by `/`. A pattern that is not a directory contributes one entry,
whose virtual path is the pattern with every backslash replaced by `/`, and
the manifest is the concatenation of what the patterns contribute, in pattern
order. -/
theorem collector_contract (fs : Node) (root dir : Path) (entries : List (Str × Node))
    (patterns : List Str) (manifest : List FileEntry)
    (hwf : listingOk entryName entries = true)
    (hcollect : collect fs root patterns [] = .ok manifest) :
    walkDir entries dir root = (regularFilesUnder entries).map (fun p =>
      { absPath := dir ++ p,
        relPath := replaceBackslashes (pathRelative root (dir ++ p)) }) ∧
    (regularFilesUnder entries).Nodup ∧
    (∀ p, p ∈ regularFilesUnder entries ↔
      ∃ data, lookup (.dir entries) p = some (.file data)) ∧
    (∀ sub p : Path, dir = root ++ sub →
      pathRelative root (dir ++ p) = join ['/'] (sub ++ p)) ∧
    ∃ stats, List.Forall₂
        (fun pattern stat => statSync fs (pathJoin root pattern) (trailingSlash pattern) = .ok stat)
        patterns stats ∧
      manifest = (List.zipWith (patternFiles root) patterns stats).flatten ∧
      ∀ (pattern : Str) (stat : Node), (∀ es, stat ≠ .dir es) →
        patternFiles root pattern stat =
          [{ absPath := pathJoin root pattern, relPath := replaceBackslashes pattern }] := by
  refine ⟨(walk_eq_regularFiles entryName (fun _ h => h)).2 entries hwf dir root,
    ((regularFiles_iff_lookup entryName).2 entries hwf).1,
    ((regularFiles_iff_lookup entryName).2 entries hwf).2, ?_, ?_⟩
  · intro sub p hdir
    rw [hdir, List.append_assoc, pathRelative_append]
  · obtain ⟨stats, hstats, hm⟩ := collect_ok patterns [] manifest hcollect
    refine ⟨stats, hstats, by simpa using hm, ?_⟩
    intro pattern stat hstat
    cases stat with
    | dir es => exact absurd rfl (hstat es)
    | file data => rfl
    | other => rfl

/-- C8 fails as stated: the pattern `a\b` names a single file, and its
virtual path in the manifest is `a/b`, not the pattern. -/
theorem backslash_pattern_rewritten :
    statSync backslashFs (pathJoin exampleRoot "a\\b".toList) (trailingSlash "a\\b".toList) =
      .ok (.file []) ∧
    collect backslashFs exampleRoot ["a\\b".toList] [] =
      .ok [{ absPath := ["game".toList, "a\\b".toList], relPath := "a/b".toList }] ∧
    "a/b".toList ≠ "a\\b".toList :=
  ⟨rfl, by decide, by decide⟩

/-- C8 on the example. -/
theorem collector_contract_example :
    listingOk entryName [("level1.lua".toList, Node.file (bytesOf "return 1".toList))] = true ∧
    collect exampleFs exampleRoot examplePatterns [] = .ok exampleManifest ∧
    walkDir [("level1.lua".toList, Node.file (bytesOf "return 1".toList))]
        ["game".toList, "src".toList] exampleRoot =
      [{ absPath := ["game".toList, "src".toList, "level1.lua".toList],
         relPath := "src/level1.lua".toList }] ∧
    ∃ stats, List.Forall₂
        (fun pattern stat =>
          statSync exampleFs (pathJoin exampleRoot pattern) (trailingSlash pattern) = .ok stat)
        examplePatterns stats ∧
      exampleManifest = (List.zipWith (patternFiles exampleRoot) examplePatterns stats).flatten :=
  ⟨by decide, by decide, by decide,
    let h := collector_contract exampleFs exampleRoot ["game".toList, "src".toList]
      [("level1.lua".toList, Node.file (bytesOf "return 1".toList))] examplePatterns
      exampleManifest (by decide) (by decide)
    ⟨h.2.2.2.2.choose, h.2.2.2.2.choose_spec.1, h.2.2.2.2.choose_spec.2.1⟩⟩

/-! ### Uniqueness of virtual paths -/

theorem lookup_append (a b : Path) : ∀ node : Node,
    lookup node (a ++ b) = (lookup node a).bind (fun n => lookup n b) := by
  induction a with
  | nil => intro node; simp [lookup_nil]
  | cons s a ih =>
    intro node
    cases node with
    | dir entries =>
      rw [List.cons_append, lookup_dir_cons, lookup_dir_cons]
      cases lookupEntry s entries with
      | none => rfl
      | some child => exact ih child
    | file data => simp [lookup]
    | other => simp [lookup]

theorem nodeOk_of_lookupEntry {ok : Str → Bool} {name : Str} {node : Node} :
    ∀ {entries : List (Str × Node)}, listingOk ok entries = true →
      lookupEntry name entries = some node → nodeOk ok node = true := by
  intro entries
  induction entries with
  | nil => intro _ h; simp [lookupEntry] at h
  | cons e rest ih =>
    obtain ⟨n, child⟩ := e
    intro hwf h
    rw [listingOk] at hwf
    simp only [Bool.and_eq_true] at hwf
    rw [lookupEntry] at h
    split_ifs at h
    · injection h with h
      subst h
      exact hwf.1.2
    · exact ih hwf.2 h

theorem regularFiles_names (ok : Str → Bool) :
    (∀ node, nodeOk ok node = true → ∀ p ∈ regularFilesAt node, ∀ s ∈ p, ok s = true) ∧
    (∀ entries, listingOk ok entries = true →
      ∀ p ∈ regularFilesUnder entries, p ≠ [] ∧ ∀ s ∈ p, ok s = true) := by
  apply node_listing_induction
  · intro data _ p hp s hs
    simp [regularFilesAt] at hp
    subst hp
    simp at hs
  · intro entries ih h p hp s hs
    rw [nodeOk] at h
    rw [regularFilesAt] at hp
    exact (ih h p hp).2 s hs
  · intro _ p hp
    simp [regularFilesAt] at hp
  · intro _ p hp
    simp [regularFilesUnder] at hp
  · intro name node rest ihn ihr h p hp
    rw [listingOk] at h
    simp only [Bool.and_eq_true] at h
    obtain ⟨⟨⟨h1, -⟩, h3⟩, h4⟩ := h
    rw [regularFilesUnder, List.mem_append, List.mem_map] at hp
    rcases hp with ⟨q, hq, rfl⟩ | hp
    · refine ⟨by simp, fun s hs => ?_⟩
      rcases List.mem_cons.1 hs with rfl | hs
      · exact h1
      · exact ihn h3 q hq s hs
    · exact ihr h4 p hp

theorem split_join_segs : ∀ (segs : List Str), segs ≠ [] → (∀ s ∈ segs, '/' ∉ s) →
    split '/' (join ['/'] segs) = segs := by
  intro segs
  induction segs with
  | nil => intro h; exact absurd rfl h
  | cons x xs ih =>
    intro _ hall
    have hx : '/' ∉ x := hall x (by simp)
    cases xs with
    | nil => simpa [join] using split_of_not_mem x hx
    | cons y ys =>
      have := ih (by simp) (fun s hs => hall s (by simp [hs]))
      rw [join, List.append_assoc, List.singleton_append, split_append_sep x _ hx, this]

theorem replaceBackslashes_id {s : Str} (h : '\\' ∉ s) : replaceBackslashes s = s := by
  induction s with
  | nil => rfl
  | cons c cs ih =>
    simp only [List.mem_cons, not_or] at h
    simp only [replaceBackslashes, List.map_cons] at ih ⊢
    rw [ih h.2, if_neg (fun e => h.1 e.symm)]

theorem backslash_not_mem_join : ∀ (segs : List Str), (∀ s ∈ segs, '\\' ∉ s) →
    '\\' ∉ join ['/'] segs := by
  intro segs
  induction segs with
  | nil => intro _; simp [join]
  | cons x xs ih =>
    intro hall
    cases xs with
    | nil => simpa [join] using hall x (by simp)
    | cons y ys =>
      have := ih (fun s hs => hall s (by simp [hs]))
      rw [join]
      simp only [List.mem_append, List.mem_singleton, not_or]
      exact ⟨⟨hall x (by simp), by decide⟩, this⟩

theorem plainName_spec {name : Str} (h : plainName name = true) :
    entryName name = true ∧ '/' ∉ name ∧ '\\' ∉ name := by
  simp only [plainName, Bool.and_eq_true, Bool.not_eq_true'] at h
  refine ⟨h.1, ?_, by simpa using h.2⟩
  have := h.1
  simp [entryName] at this
  exact this.2

theorem trailingSlash_plainName {name : Str} (h : plainName name = true) :
    trailingSlash name = false := by
  have hs := (plainName_spec h).2.1
  simp only [trailingSlash, decide_eq_false_iff_not]
  intro hl
  exact hs (List.mem_of_getLast?_eq_some hl)

theorem statSync_ok {fs : Node} {p : Path} {t : Bool} {stat : Node}
    (h : statSync fs p t = .ok stat) : lookup fs p = some stat := by
  rw [statSync] at h
  cases hl : lookup fs p with
  | none => rw [hl] at h; cases h
  | some node =>
    rw [hl] at h
    cases node with
    | dir entries => injection h with h; rw [h]
    | file data =>
      simp only at h
      split_ifs at h
      injection h with h
      rw [h]
    | other =>
      simp only at h
      split_ifs at h
      injection h with h
      rw [h]

theorem patternFiles_relPaths (root : Path) {p : Str} {stat : Node}
    (hp : plainName p = true) (hst : nodeOk plainName stat = true) :
    (patternFiles root p stat).map (fun f => f.relPath) =
      (patternPaths p stat).map (join ['/']) := by
  have hid : replaceBackslashes p = p := replaceBackslashes_id (plainName_spec hp).2.2
  cases stat with
  | dir entries =>
    rw [nodeOk] at hst
    rw [patternFiles, patternPaths,
      (walk_eq_regularFiles plainName (fun _ h => (plainName_spec h).1)).2 entries hst,
      pathJoin_entryName root (plainName_spec hp).1, List.map_map, List.map_map]
    apply List.map_congr_left
    intro q hq
    have hq' := ((regularFiles_names plainName).2 entries hst q hq).2
    simp only [Function.comp_apply]
    rw [List.append_assoc, pathRelative_append, List.singleton_append]
    apply replaceBackslashes_id
    apply backslash_not_mem_join
    intro s hs
    rcases List.mem_cons.1 hs with rfl | hs
    · exact (plainName_spec hp).2.2
    · exact (plainName_spec (hq' s hs)).2.2
  | file data => simp [patternFiles, patternPaths, join, hid]
  | other => simp [patternFiles, patternPaths, join, hid]

theorem patternPaths_spec {p : Str} {stat : Node}
    (hp : plainName p = true) (hst : nodeOk plainName stat = true) :
    (patternPaths p stat).Nodup ∧
    ∀ x ∈ patternPaths p stat, x.head? = some p ∧ ∀ s ∈ x, plainName s = true := by
  cases stat with
  | dir entries =>
    rw [nodeOk] at hst
    rw [patternPaths]
    refine ⟨((regularFiles_iff_lookup plainName).2 entries hst).1.map
      (fun a b hab => by injection hab), ?_⟩
    intro x hx
    obtain ⟨q, hq, rfl⟩ := List.mem_map.1 hx
    refine ⟨rfl, fun s hs => ?_⟩
    rcases List.mem_cons.1 hs with rfl | hs
    · exact hp
    · exact ((regularFiles_names plainName).2 entries hst q hq).2 s hs
  | file data =>
    refine ⟨by simp [patternPaths], fun x hx => ?_⟩
    simp only [patternPaths, List.mem_singleton] at hx
    subst hx
    exact ⟨rfl, fun s hs => by simp at hs; subst hs; exact hp⟩
  | other =>
    refine ⟨by simp [patternPaths], fun x hx => ?_⟩
    simp only [patternPaths, List.mem_singleton] at hx
    subst hx
    exact ⟨rfl, fun s hs => by simp at hs; subst hs; exact hp⟩

theorem manifest_segments (root : Path) {patterns : List Str} {stats : List Node}
    (h : List.Forall₂ (fun _ stat => nodeOk plainName stat = true) patterns stats) :
    patterns.Nodup → (∀ p ∈ patterns, plainName p = true) →
    ((List.zipWith patternPaths patterns stats).flatten).Nodup ∧
    (∀ x ∈ (List.zipWith patternPaths patterns stats).flatten,
      (∃ q ∈ patterns, x.head? = some q) ∧ ∀ s ∈ x, plainName s = true) ∧
    ((List.zipWith (patternFiles root) patterns stats).flatten).map (fun f => f.relPath) =
      ((List.zipWith patternPaths patterns stats).flatten).map (join ['/']) := by
  induction h with
  | nil => intro _ _; simp
  | @cons p stat ps sts hst _ ih =>
    intro hnodup hnames
    rw [List.nodup_cons] at hnodup
    have hp := hnames p (by simp)
    obtain ⟨i1, i2, i3⟩ := ih hnodup.2 (fun q hq => hnames q (by simp [hq]))
    obtain ⟨b1, b2⟩ := patternPaths_spec hp hst
    simp only [List.zipWith_cons_cons, List.flatten_cons, List.map_append]
    refine ⟨?_, ?_, ?_⟩
    · rw [List.nodup_append]
      refine ⟨b1, i1, ?_⟩
      intro x hx1 hx2
      obtain ⟨q, hq, hhead⟩ := (i2 x hx2).1
      rw [(b2 x hx1).1] at hhead
      injection hhead with hhead
      subst hhead
      exact hnodup.1 hq
    · intro x hx
      rcases List.mem_append.1 hx with hx | hx
      · exact ⟨⟨p, by simp, (b2 x hx).1⟩, (b2 x hx).2⟩
      · obtain ⟨⟨q, hq, hhead⟩, hs⟩ := i2 x hx
        exact ⟨⟨q, by simp [hq], hhead⟩, hs⟩
    · rw [patternFiles_relPaths root hp hst, i3]

/-- C9 (as the code has it): when the patterns are pairwise distinct names of
entries of the root directory, and no name in the tree contains a backslash,
no two entries of the manifest have the same virtual path. -/
theorem manifest_paths_nodup (fs : Node) (root : Path) (rootEntries : List (Str × Node))
    (patterns : List Str) (manifest : List FileEntry)
    (hroot : lookup fs root = some (.dir rootEntries))
    (hwf : listingOk plainName rootEntries = true)
    (hdistinct : patterns.Nodup) (hnames : ∀ p ∈ patterns, plainName p = true)
    (hcollect : collect fs root patterns [] = .ok manifest) :
    (manifest.map (fun f => f.relPath)).Nodup := by
  obtain ⟨stats, hstats, hm⟩ := collect_ok patterns [] manifest hcollect
  have hok : List.Forall₂ (fun _ stat => nodeOk plainName stat = true) patterns stats := by
    clear hm hcollect hdistinct
    induction hstats with
    | nil => exact List.Forall₂.nil
    | @cons p stat ps sts hst _ ih =>
      refine List.Forall₂.cons ?_ (ih (fun q hq => hnames q (by simp [hq])))
      have hp := hnames p (by simp)
      have hl := statSync_ok hst
      rw [pathJoin_entryName root (plainName_spec hp).1, lookup_append, hroot] at hl
      simp only [Option.some_bind] at hl
      rw [lookup_dir_cons] at hl
      cases he : lookupEntry p rootEntries with
      | none => rw [he] at hl; cases hl
      | some child =>
        rw [he] at hl
        simp only [lookup_nil] at hl
        injection hl with hl
        subst hl
        exact nodeOk_of_lookupEntry hwf he
  obtain ⟨h1, h2, h3⟩ := manifest_segments root hok hdistinct hnames
  rw [hm, List.nil_append, h3]
  apply List.Nodup.map_on _ h1
  intro x hx y hy hxy
  have hsx : ∀ x ∈ (List.zipWith patternPaths patterns stats).flatten,
      split '/' (join ['/'] x) = x := by
    intro x hx
    obtain ⟨⟨q, -, hhead⟩, hs⟩ := h2 x hx
    apply split_join_segs
    · intro hnil; rw [hnil] at hhead; cases hhead
    · intro s hs'
      exact (plainName_spec (hs s hs')).2.1
  rw [← hsx x hx, ← hsx y hy, hxy]

/-- C9 fails as stated: with a directory pattern and a file pattern inside
it, the file is in the manifest twice under the same virtual path. -/
theorem overlapping_patterns_repeat :
    collect exampleFs exampleRoot ["src".toList, "src/level1.lua".toList] [] =
      .ok [{ absPath := ["game".toList, "src".toList, "level1.lua".toList],
             relPath := "src/level1.lua".toList },
           { absPath := ["game".toList, "src".toList, "level1.lua".toList],
             relPath := "src/level1.lua".toList }] ∧
    ¬ (["src/level1.lua".toList, "src/level1.lua".toList] : List Str).Nodup := by
  decide

/-- C9 on the example: its manifest has pairwise distinct virtual paths. -/
theorem manifest_paths_nodup_example :
    lookup exampleFs exampleRoot = some (.dir [
      ("main.lua".toList, .file (bytesOf "print(1)".toList)),
      ("conf.lua".toList, .file (bytesOf "t.version = \"11.4\"\n".toList)),
      ("src".toList, .dir [("level1.lua".toList, .file (bytesOf "return 1".toList))])]) ∧
    examplePatterns.Nodup ∧
    (∀ p ∈ examplePatterns, plainName p = true) ∧
    collect exampleFs exampleRoot examplePatterns [] = .ok exampleManifest ∧
    (exampleManifest.map (fun f => f.relPath)).Nodup :=
  ⟨rfl, by decide, by decide, by decide,
    manifest_paths_nodup exampleFs exampleRoot _ examplePatterns exampleManifest rfl
      (by decide) (by decide) (by decide) (by decide)⟩

/-! ### The loader -/

namespace Loader

theorem inv_DoSetup : Inv DoSetup := by
  constructor <;> simp [DoSetup]

theorem inv_step {s : Loader} (h : Inv s) (e : Event) : Inv (step s e) := by
  obtain ⟨vd, vp, vm, vx, vs, vb, vt, vh, vr, vo, vw, vl⟩ := s
  obtain ⟨h1, h2, h3, h4, h5, h6⟩ := h
  simp only at h1 h2 h3 h4 h5 h6
  cases vd <;> cases vx <;> cases vt <;> cases vh <;> simp at h1 h2 h3 <;>
    cases vr <;> cases vw <;> cases vl <;> simp at h5 h6 <;>
    cases vo <;> simp at h4 <;>
    cases e <;>
    constructor <;>
    simp [step, onclick, DoLoad, Msg, onprogress, onerror, onload, ontimeout, DoExecute,
      postRun, Fail] <;>
    split_ifs <;> simp

theorem run_append (s : Loader) (xs ys : List Event) :
    run s (xs ++ ys) = run (run s xs) ys := by
  simp [run, List.foldl_append]

theorem inv_run {s : Loader} (h : Inv s) (events : List Event) : Inv (run s events) := by
  induction events generalizing s with
  | nil => exact h
  | cons e rest ih => exact ih (inv_step h e)

theorem stage_idle {s : Loader} (h : stage s = .idle) :
    s.swapped = false ∧ s.overlay = none ∧ s.postRunSet = false ∧ s.timer = false ∧
      s.xhr = false := by
  unfold stage at h
  split_ifs at h with h1 h2 h3 h4 h5 h6
  refine ⟨by simpa using h1, by simpa using h2, by simpa using h3, by simpa using h4,
    by simpa using h5⟩

/-- What a click does when the canvas is in the document and enabled and
nothing is pending: one request is sent and the loader is downloading. -/
theorem onclick_enabled {s : Loader} (hd : s.disabled = false) (ho : s.overlay = none)
    (hw : s.swapped = false) (hp : s.postRunSet = false) (ht : s.timer = false) :
    step s .click =
      { s with disabled := true, pCnt := 0, message := TXT.LOAD, xhr := true,
               sent := s.sent + 1 } ∧
    stage (step s .click) = .downloading := by
  have e : step s .click =
      { s with disabled := true, pCnt := 0, message := TXT.LOAD, xhr := true,
               sent := s.sent + 1 } := by
    simp [step, onclick, DoLoad, Msg, hd, ho, hw]
  refine ⟨e, ?_⟩
  rw [e]
  simp [stage, ho, hw, hp, ht]

end Loader

/-- C11 (as the code has it): for every loader that events have produced from
the page as set up: in Idle every event but a click changes nothing, and a
click disables the canvas, resets the counter and sends one request; a click
changes nothing in Downloading, Preparing, Executing and Running, and in
Failed when the failure markup is in place; in Failed after a download error,
where the handler has enabled the canvas again, a click sends a new request
as it does from Idle. -/
theorem click_transitions (events : List Event) :
    (Loader.stage (Loader.run Loader.DoSetup events) = .idle →
      (∀ e, e ≠ Event.click →
        Loader.step (Loader.run Loader.DoSetup events) e = Loader.run Loader.DoSetup events) ∧
      Loader.step (Loader.run Loader.DoSetup events) .click =
        { Loader.run Loader.DoSetup events with
          disabled := true, pCnt := 0, message := TXT.LOAD, xhr := true,
          sent := (Loader.run Loader.DoSetup events).sent + 1 } ∧
      Loader.stage (Loader.step (Loader.run Loader.DoSetup events) .click) = .downloading) ∧
    (Loader.stage (Loader.run Loader.DoSetup events) = .downloading ∨
      Loader.stage (Loader.run Loader.DoSetup events) = .preparing ∨
      Loader.stage (Loader.run Loader.DoSetup events) = .executing ∨
      Loader.stage (Loader.run Loader.DoSetup events) = .running →
      Loader.step (Loader.run Loader.DoSetup events) .click =
        Loader.run Loader.DoSetup events) ∧
    (Loader.stage (Loader.run Loader.DoSetup events) = .failed →
      ((Loader.run Loader.DoSetup events).overlay.isSome = true →
        Loader.step (Loader.run Loader.DoSetup events) .click =
          Loader.run Loader.DoSetup events) ∧
      ((Loader.run Loader.DoSetup events).overlay = none →
        (Loader.run Loader.DoSetup events).disabled = false ∧
        (Loader.step (Loader.run Loader.DoSetup events) .click).sent =
          (Loader.run Loader.DoSetup events).sent + 1 ∧
        (Loader.step (Loader.run Loader.DoSetup events) .click).pCnt = 0 ∧
        (Loader.step (Loader.run Loader.DoSetup events) .click).disabled = true ∧
        Loader.stage (Loader.step (Loader.run Loader.DoSetup events) .click) =
          .downloading)) := by
  have hinv := Loader.inv_run Loader.inv_DoSetup events
  generalize Loader.run Loader.DoSetup events = s at hinv
  obtain ⟨h1, h2, h3, h4, h5, h6⟩ := hinv
  refine ⟨?_, ?_, ?_⟩
  · intro hs
    obtain ⟨hw, ho, hp, ht, hx⟩ := Loader.stage_idle hs
    have hh : s.hooked = false := by
      cases hk : s.hooked with
      | false => rfl
      | true => simpa [hw, ho, hp] using h4 hk
    have hd : s.disabled = false := by rw [h1, hx, ht, hh]; rfl
    refine ⟨?_, Loader.onclick_enabled hd ho hw hp ht⟩
    intro e he
    cases e <;> simp [Loader.step, hx, ht, hp, hh] at he ⊢
  · intro hs
    have key : s.swapped = true ∨ s.disabled = true := by
      unfold Loader.stage at hs
      split_ifs at hs with g1 g2 g3 g4 g5 g6 <;> simp at hs
      · exact Or.inl g1
      · right; rw [h1, h5 g3]; simp
      · right; rw [h1, g4]; simp
      · right; rw [h1, g5]; simp
    rcases key with k | k
    · simp [Loader.step, Loader.onclick, k]
    · simp [Loader.step, Loader.onclick, k]
  · intro hs
    refine ⟨fun ho => by simp [Loader.step, Loader.onclick, ho], fun ho => ?_⟩
    unfold Loader.stage at hs
    split_ifs at hs with g1 g2 g3 g4 g5 g6 <;> simp at hs
    · simp [ho] at g2
    · have hw : s.swapped = false := by simpa using g1
      have hp : s.postRunSet = false := by simpa using g3
      have ht : s.timer = false := by simpa using g4
      have hx : s.xhr = false := by simpa using g5
      have hh : s.hooked = false := by
        cases hk : s.hooked with
        | false => rfl
        | true => simpa [hw, ho, hp] using h4 hk
      have hd : s.disabled = false := by rw [h1, hx, ht, hh]; rfl
      obtain ⟨e1, e2⟩ := Loader.onclick_enabled hd ho hw hp ht
      refine ⟨hd, ?_, ?_, ?_, e2⟩ <;> rw [e1]

/-- C11 fails as stated: after a transport error the loader is in Failed with
the canvas enabled, and a click there sends a second request. -/
theorem click_after_error_restarts :
    Loader.stage (Loader.run Loader.DoSetup [.click, .error]) = .failed ∧
    (Loader.run Loader.DoSetup [.click, .error]).sent = 1 ∧
    (Loader.step (Loader.run Loader.DoSetup [.click, .error]) .click).sent = 2 ∧
    Loader.step (Loader.run Loader.DoSetup [.click, .error]) .click ≠
      Loader.run Loader.DoSetup [.click, .error] := by
  decide

namespace Loader

theorem stage_downloading {s : Loader} (h : stage s = .downloading) :
    s.swapped = false ∧ s.overlay = none ∧ s.postRunSet = false ∧ s.timer = false ∧
      s.xhr = true := by
  unfold stage at h
  split_ifs at h with h1 h2 h3 h4 h5 h6
  exact ⟨by simpa using h1, by simpa using h2, by simpa using h3, by simpa using h4, h5⟩

theorem stage_DLERROR {s : Loader} (hw : s.swapped = false) (ho : s.overlay = none)
    (hp : s.postRunSet = false) (ht : s.timer = false) (hx : s.xhr = false) (rest : Str)
    (hm : s.message = TXT.DLERROR ++ rest) : stage s = .failed := by
  have : TXT.DLERROR.isPrefixOf s.message = true := by
    rw [hm, List.isPrefixOf_iff_prefix]
    exact List.prefix_append _ _
  simp [stage, hw, ho, hp, ht, hx, this]

end Loader

/-- C12 (as the code has it): when the request of a downloading loader ends
with a status other than 200, the loader is in Failed, the canvas shows the
download error followed by the line `Status: ` and the status text of the
response (the number is not shown), and the canvas is enabled again, so that
a click sends a new request; a transport error and an abort do the same with
the download error alone. -/
theorem download_failure (s : Loader) (status : Nat) (statusText : Str)
    (hs : Loader.stage s = .downloading) (hstatus : status ≠ 200) :
    (Loader.stage (Loader.step s (.load status statusText)) = .failed ∧
      (Loader.step s (.load status statusText)).message =
        TXT.DLERROR ++ "\nStatus: ".toList ++ statusText ∧
      (Loader.step s (.load status statusText)).disabled = false ∧
      (Loader.step (Loader.step s (.load status statusText)) .click).sent = s.sent + 1) ∧
    (Loader.stage (Loader.step s .error) = .failed ∧
      (Loader.step s .error).message = TXT.DLERROR ∧
      (Loader.step s .error).disabled = false ∧
      (Loader.step (Loader.step s .error) .click).sent = s.sent + 1) ∧
    (Loader.stage (Loader.step s .abort) = .failed ∧
      (Loader.step s .abort).message = TXT.DLERROR ∧
      (Loader.step s .abort).disabled = false ∧
      (Loader.step (Loader.step s .abort) .click).sent = s.sent + 1) := by
  obtain ⟨hw, ho, hp, ht, hx⟩ := Loader.stage_downloading hs
  have e1 : Loader.step s (.load status statusText) =
      { s with xhr := false, message := TXT.DLERROR ++ "\nStatus: ".toList ++ statusText,
               disabled := false } := by
    simp [Loader.step, Loader.onload, Loader.Msg, hx, hstatus]
  have e2 : Loader.step s .error =
      { s with xhr := false, message := TXT.DLERROR, disabled := false } := by
    simp [Loader.step, Loader.onerror, Loader.Msg, hx]
  have e3 : Loader.step s .abort =
      { s with xhr := false, message := TXT.DLERROR, disabled := false } := by
    simp [Loader.step, Loader.onerror, Loader.Msg, hx]
  refine ⟨?_, ?_, ?_⟩
  · rw [e1]
    refine ⟨Loader.stage_DLERROR hw ho hp ht rfl ("\nStatus: ".toList ++ statusText)
      (by simp), rfl, rfl, ?_⟩
    simp [Loader.step, Loader.onclick, Loader.DoLoad, Loader.Msg, ho, hw]
  · rw [e2]
    refine ⟨Loader.stage_DLERROR hw ho hp ht rfl [] (by simp), rfl, rfl, ?_⟩
    simp [Loader.step, Loader.onclick, Loader.DoLoad, Loader.Msg, ho, hw]
  · rw [e3]
    refine ⟨Loader.stage_DLERROR hw ho hp ht rfl [] (by simp), rfl, rfl, ?_⟩
    simp [Loader.step, Loader.onclick, Loader.DoLoad, Loader.Msg, ho, hw]

set_option maxRecDepth 4000 in
/-- C12 fails as stated: for the status 404 with its status text `Not Found`,
the message on the canvas does not contain `404`. -/
theorem status_number_not_shown :
    Loader.stage (Loader.run Loader.DoSetup [.click, .load 404 "Not Found".toList]) = .failed ∧
    (Loader.run Loader.DoSetup [.click, .load 404 "Not Found".toList]).message =
      ("Error while downloading game data.\nCheck your internet connection.\n" ++
        "Status: Not Found").toList ∧
    ¬ ("404".toList <:+:
      (Loader.run Loader.DoSetup [.click, .load 404 "Not Found".toList]).message) := by
  decide

/-- C12 on the status 404 with the status text `Not Found`. -/
theorem download_failure_example :
    Loader.stage (Loader.run Loader.DoSetup [.click]) = .downloading ∧
    Loader.stage (Loader.step (Loader.run Loader.DoSetup [.click])
      (.load 404 "Not Found".toList)) = .failed ∧
    (Loader.step (Loader.run Loader.DoSetup [.click]) (.load 404 "Not Found".toList)).message =
      TXT.DLERROR ++ "\nStatus: ".toList ++ "Not Found".toList ∧
    (Loader.step (Loader.run Loader.DoSetup [.click])
      (.load 404 "Not Found".toList)).disabled = false :=
  ⟨by decide,
    (download_failure (Loader.run Loader.DoSetup [.click]) 404 "Not Found".toList
      (by decide) (by decide)).1.1,
    (download_failure (Loader.run Loader.DoSetup [.click]) 404 "Not Found".toList
      (by decide) (by decide)).1.2.1,
    (download_failure (Loader.run Loader.DoSetup [.click]) 404 "Not Found".toList
      (by decide) (by decide)).1.2.2.1⟩

/-- C11 on the page as set up, and after a download error. -/
theorem click_transitions_example :
    Loader.stage (Loader.run Loader.DoSetup []) = .idle ∧
    Loader.stage (Loader.step (Loader.run Loader.DoSetup []) .click) = .downloading ∧
    Loader.stage (Loader.run Loader.DoSetup [.click]) = .downloading ∧
    Loader.step (Loader.run Loader.DoSetup [.click]) .click =
      Loader.run Loader.DoSetup [.click] :=
  ⟨by decide, ((click_transitions []).1 (by decide)).2.2, by decide,
    (click_transitions [.click]).2.1 (Or.inl (by decide))⟩

namespace Loader

theorem overlay_step {s : Loader} (ho : s.overlay.isSome = true) (hw : s.swapped = false)
    (e : Event) : (step s e).overlay.isSome = true ∧ (step s e).swapped = false := by
  cases e <;>
    simp [step, onclick, DoLoad, Msg, onprogress, onerror, onload, ontimeout, DoExecute,
      postRun, Fail, ho, hw] <;>
    split_ifs <;> simp [ho, hw]

theorem overlay_run (events : List Event) : ∀ {s : Loader}, s.overlay.isSome = true →
    s.swapped = false → stage (run s events) = .failed := by
  induction events with
  | nil =>
    intro s ho hw
    simp [run, stage, ho, hw]
  | cons e rest ih =>
    intro s ho hw
    exact ih (overlay_step ho hw e).1 (overlay_step ho hw e).2

end Loader

/-- C13: when the post-run hook of an executing loader is called while
`Module.noExitRuntime` is false, the loader is in Failed with the markup of
`Fail()` in place, the canvas is not swapped and the variables are not
released, and no later events bring it to Running; when the signal is true,
the canvas is swapped, the variables are released and the loader is in
Running. -/
theorem postRun_outcome (events : List Event)
    (hs : Loader.stage (Loader.run Loader.DoSetup events) = .executing) :
    (Loader.stage (Loader.step (Loader.run Loader.DoSetup events) (.postRun false)) = .failed ∧
      (Loader.step (Loader.run Loader.DoSetup events) (.postRun false)).overlay =
        some TXT.NOWEBGL ∧
      (Loader.step (Loader.run Loader.DoSetup events) (.postRun false)).swapped = false ∧
      (Loader.step (Loader.run Loader.DoSetup events) (.postRun false)).released = false ∧
      ∀ later : List Event,
        Loader.stage (Loader.run
          (Loader.step (Loader.run Loader.DoSetup events) (.postRun false)) later) = .failed ∧
        Loader.stage (Loader.run
          (Loader.step (Loader.run Loader.DoSetup events) (.postRun false)) later) ≠ .running) ∧
    (Loader.stage (Loader.step (Loader.run Loader.DoSetup events) (.postRun true)) = .running ∧
      (Loader.step (Loader.run Loader.DoSetup events) (.postRun true)).swapped = true ∧
      (Loader.step (Loader.run Loader.DoSetup events) (.postRun true)).released = true) := by
  have hinv := Loader.inv_run Loader.inv_DoSetup events
  generalize Loader.run Loader.DoSetup events = s at hinv hs
  have hflags : s.swapped = false ∧ s.overlay = none ∧ s.postRunSet = true := by
    unfold Loader.stage at hs
    split_ifs at hs with h1 h2 h3
    exact ⟨by simpa using h1, by simpa using h2, h3⟩
  obtain ⟨hw, ho, hp⟩ := hflags
  have hr : s.released = false := by rw [hinv.rel, hw]
  have e1 : Loader.step s (.postRun false) =
      { s with postRunSet := false, overlay := some TXT.NOWEBGL } := by
    simp [Loader.step, Loader.postRun, Loader.Fail, hp, ho, hw]
  have e2 : Loader.step s (.postRun true) =
      { s with postRunSet := false, swapped := true, released := true } := by
    simp [Loader.step, Loader.postRun, hp, ho]
  refine ⟨?_, ?_⟩
  · rw [e1]
    refine ⟨by simp [Loader.stage, hw], rfl, hw, hr, fun later => ?_⟩
    have := Loader.overlay_run later
      (show ({ s with postRunSet := false, overlay := some TXT.NOWEBGL } : Loader).overlay.isSome
        = true from rfl) hw
    exact ⟨this, by rw [this]; decide⟩
  · rw [e2]
    exact ⟨by simp [Loader.stage], rfl, rfl⟩

/-- C13 on a run that reaches Executing. -/
theorem postRun_outcome_example :
    Loader.stage (Loader.run Loader.DoSetup [.click, .load 200 "OK".toList, .timeout]) =
      .executing ∧
    Loader.stage (Loader.run Loader.DoSetup
      [.click, .load 200 "OK".toList, .timeout, .postRun false]) = .failed ∧
    Loader.stage (Loader.run Loader.DoSetup
      [.click, .load 200 "OK".toList, .timeout, .postRun true]) = .running :=
  ⟨by decide,
    (postRun_outcome [.click, .load 200 "OK".toList, .timeout] (by decide)).1.1,
    (postRun_outcome [.click, .load 200 "OK".toList, .timeout] (by decide)).2.1⟩

namespace Deploy

theorem parseFlags_web {args : List Str} (hweb : "--web".toList ∈ args)
    (hwin : "--win".toList ∉ args) (hb : "--build-only".toList ∉ args)
    (hd : "--deploy-only".toList ∉ args) :
    (parseFlags args).webOnly = true ∧ (parseFlags args).winOnly = false ∧
    (parseFlags args).buildOnly = false ∧ (parseFlags args).deployOnly = false := by
  refine ⟨?_, ?_, ?_, ?_⟩
  · simpa [parseFlags] using hweb
  · simpa [parseFlags] using hwin
  · simpa [parseFlags] using hb
  · simpa [parseFlags] using hd

/-- With `--web` and none of `--win`, `--build-only`, `--deploy-only`, on every
host, the steps of a run are an initial part of: the `.love` build, the web
build, the push to `html5`; and they are all three when the run ends
normally. -/
theorem web_flag_steps (host : Host) (args : List Str) (hweb : "--web".toList ∈ args)
    (hwin : "--win".toList ∉ args) (hb : "--build-only".toList ∉ args)
    (hd : "--deploy-only".toList ∉ args) :
    (main host args).steps <+: [.buildLove, .buildWeb, .push CHANNELS_web] ∧
    ((main host args).completed = true →
      (main host args).steps = [.buildLove, .buildWeb, .push CHANNELS_web]) := by
  obtain ⟨f1, f2, f3, f4⟩ := parseFlags_web hweb hwin hb hd
  simp only [main, preflight, initialTargets, doBuild, doDeploy, f1, f2, f3, f4, buildPhase,
    deployPhase, pushBlock]
  generalize host.butler = b1
  generalize host.cmdOk .butlerVersion = b2
  generalize host.creds = b3
  generalize host.cmdOk .nodeVersion = b4
  generalize host.sources = b5
  generalize host.cmdOk .compressArchive = b6
  generalize host.cmdOk .buildWebScript = b7
  generalize host.webIndex = b8
  generalize host.cmdOk (.butlerPush CHANNELS_web) = b9
  cases b1
  · simp
  cases b2
  · simp
  cases b3
  · simp
  cases b4
  · simp
  cases b5
  · simp
  cases b6
  · simp [List.prefix_iff_eq_take]
  cases b7
  · simp [List.prefix_iff_eq_take]
  cases b8
  · simp [List.prefix_iff_eq_take]
  cases b9 <;> simp [List.prefix_iff_eq_take]

/-- With `--win` and none of `--web`, `--build-only`, `--deploy-only`, on every
host, the steps of a run are an initial part of: the `.love` build, the
Windows build, the push to `windows`; and they are all three when the run
ends normally on a host that has `love.exe`. -/
theorem win_flag_steps (host : Host) (args : List Str) (hwin : "--win".toList ∈ args)
    (hweb : "--web".toList ∉ args) (hb : "--build-only".toList ∉ args)
    (hd : "--deploy-only".toList ∉ args) :
    (main host args).steps <+: [.buildLove, .buildWin, .push CHANNELS_win] ∧
    ((main host args).completed = true → host.loveExe = true →
      (main host args).steps = [.buildLove, .buildWin, .push CHANNELS_win]) := by
  have f1 : (parseFlags args).winOnly = true := by simpa [parseFlags] using hwin
  have f2 : (parseFlags args).webOnly = false := by simpa [parseFlags] using hweb
  have f3 : (parseFlags args).buildOnly = false := by simpa [parseFlags] using hb
  have f4 : (parseFlags args).deployOnly = false := by simpa [parseFlags] using hd
  simp only [main, preflight, initialTargets, doBuild, doDeploy, f1, f2, f3, f4, buildPhase,
    deployPhase, pushBlock]
  generalize host.butler = b1
  generalize host.cmdOk .butlerVersion = b2
  generalize host.creds = b3
  generalize host.loveExe = b4
  generalize host.sources = b5
  generalize host.cmdOk .compressArchive = b6
  generalize host.cmdOk .fuse = b7
  generalize host.winExe = b8
  generalize host.cmdOk (.butlerPush CHANNELS_win) = b9
  cases b1
  · simp
  cases b2
  · simp
  cases b3
  · simp
  cases b5
  · cases b4 <;> simp
  cases b6
  · cases b4 <;> simp [List.prefix_iff_eq_take]
  cases b4
  · simp [List.prefix_iff_eq_take]
  cases b7
  · simp [List.prefix_iff_eq_take]
  cases b8
  · simp [List.prefix_iff_eq_take]
  cases b9 <;> simp [List.prefix_iff_eq_take]

end Deploy

/-- C15 at the command line `--web` on a host where every file is present and
every command succeeds: the target `love` is off, and the run builds the
`.love` archive before the web build, then pushes to `html5` alone. -/
theorem web_flag_builds_love :
    Deploy.initialTargets (Deploy.parseFlags ["--web".toList]) =
      { web := true, win := false, love := false } ∧
    Deploy.main Deploy.fullHost ["--web".toList] =
      { steps := [.buildLove, .buildWeb, .push "html5".toList], completed := true } ∧
    Deploy.main Deploy.fullHost ["--win".toList] =
      { steps := [.buildLove, .buildWin, .push "windows".toList], completed := true } := by
  decide

end SlimeSplit
